import Mathlib

/-!
Verification of the marble-tools lexicon pipeline.

This development shallowly embeds the TypeScript sources of the repository:
  - src/helpers.ts: the reference codec (marbleLinkIdToU23003, getBookNumber,
    parseU23003Reference), the identifier normalizer (condenseSenseId,
    transformDomainCode) and the two book tables;
  - src/convert-marble-lexicon.ts: the lexicon extractor (processFile),
    the cross-reference linker (processLexicalLink) and the
    deduplicator/validator (verifyAndRemoveDuplicateSenses,
    removeEmptyEntriesAndSenses).

Strings are modelled by Lean String (a wrapper around List Char); JS numbers
that are always naturals in the code are modelled by Nat, with Option Nat
where a JS NaN can arise from parseInt.  JS objects used as ordered
string-keyed maps are modelled by association lists in insertion order.
Console logging and statistics counters are pure reporting and are omitted.
-/

namespace MarbleTools

/-! ## JS primitives -/

/-- Value of a digit-character list read in base 10, the way JS parseInt reads
a string of decimal digits (leading zeros are dropped by the numeric value). -/
def parseIntDigits (cs : List Char) : Nat :=
  cs.foldl (fun a c => a * 10 + (c.toNat - 48)) 0

/-- Model of JS parseInt(s, 10): the longest leading run of decimal digits is
parsed, and NaN (here: none) results when there is none.  Sign and leading
whitespace handling of parseInt never arises on the inputs the sources feed
to it (digit substrings and attribute codes). -/
def jsParseInt (s : String) : Option Nat :=
  let ds := s.data.takeWhile Char.isDigit
  if ds = [] then none else some (parseIntDigits ds)

/-- Fuel-driven decimal digit expansion; fuel n+1 always suffices for n. -/
def toDecimalAux : Nat → Nat → List Char
  | 0, _ => []
  | fuel + 1, n =>
    if n < 10 then [Nat.digitChar n]
    else toDecimalAux fuel (n / 10) ++ [Nat.digitChar (n % 10)]

/-- Decimal rendering of a natural number, as JS renders an integer-valued
number in a template literal. -/
def natToString (n : Nat) : String :=
  String.mk (toDecimalAux (n + 1) n)

/-- Rendering of an Option Nat JS number (none is NaN). -/
def showJsNum : Option Nat → String
  | none => "NaN"
  | some n => natToString n

/-- Rendering of the JS number w / 2: an integer when w is even, a value with
a trailing .5 otherwise (JS division is exact on these small numbers). -/
def showJsHalf : Option Nat → String
  | none => "NaN"
  | some w => if w % 2 = 0 then natToString (w / 2) else natToString (w / 2) ++ ".5"

/-- JS s.substring(a, b) for a ≤ b (the only way the sources call it). -/
def jsSubstr (s : String) (a b : Nat) : String :=
  String.mk ((s.data.drop a).take (b - a))

/-- JS s.substring(a). -/
def jsSubstrEnd (s : String) (a : Nat) : String :=
  String.mk (s.data.drop a)

/-- Whitespace class of the JS regex \s restricted to ASCII; only the plain
space occurs in the strings the sources build. -/
def jsIsSpace (c : Char) : Bool :=
  c == ' ' || c == '\t' || c == '\n' || c == '\r' || c == '\x0b' || c == '\x0c'

/-- Character class of the JS regex \w: ASCII letters, digits and underscore. -/
def isWordChar (c : Char) : Bool :=
  c.isAlpha || c.isDigit || c == '_'

/-- JS String.prototype.trim restricted to ASCII whitespace. -/
def trimChars (cs : List Char) : List Char :=
  ((cs.dropWhile jsIsSpace).reverse.dropWhile jsIsSpace).reverse

/-- JS s.trim(). -/
def jsTrim (s : String) : String :=
  String.mk (trimChars s.data)

/-- JS s.toUpperCase() restricted to ASCII (the sources only compare against
ASCII dictionary tags and marker letters). -/
def jsUpper (s : String) : String :=
  String.mk (s.data.map Char.toUpper)

/-- JS s.split(sep) for a single-character separator, on the character list. -/
def splitOn (sep : Char) : List Char → List (List Char)
  | [] => [[]]
  | c :: rest =>
    if c = sep then [] :: splitOn sep rest
    else
      match splitOn sep rest with
      | [] => [[c]]
      | seg :: segs => (c :: seg) :: segs

/-- First-match association-list lookup, as JS property access on the
string-keyed record objects of helpers.ts. -/
def lookupStr {α : Type} : List (String × α) → String → Option α
  | [], _ => none
  | (k1, v) :: rest, k => if k1 = k then some v else lookupStr rest k

/-! ## Book tables (helpers.ts: bookMap, bookCodeToNumber) -/

/-- Embedding of bookMap from helpers.ts: 3-digit book codes to 3-letter
abbreviations, in source order. -/
def bookMapList : List (String × String) :=
  [
    ("001", "GEN"), ("002", "EXO"), ("003", "LEV"), ("004", "NUM"), ("005", "DEU"), ("006", "JOS"),
    ("007", "JDG"), ("008", "RUT"), ("009", "1SA"), ("010", "2SA"), ("011", "1KI"), ("012", "2KI"),
    ("013", "1CH"), ("014", "2CH"), ("015", "EZR"), ("016", "NEH"), ("017", "EST"), ("018", "JOB"),
    ("019", "PSA"), ("020", "PRO"), ("021", "ECC"), ("022", "SNG"), ("023", "ISA"), ("024", "JER"),
    ("025", "LAM"), ("026", "EZK"), ("027", "DAN"), ("028", "HOS"), ("029", "JOL"), ("030", "AMO"),
    ("031", "OBA"), ("032", "JON"), ("033", "MIC"), ("034", "NAM"), ("035", "HAB"), ("036", "ZEP"),
    ("037", "HAG"), ("038", "ZEC"), ("039", "MAL"), ("040", "MAT"), ("041", "MRK"), ("042", "LUK"),
    ("043", "JHN"), ("044", "ACT"), ("045", "ROM"), ("046", "1CO"), ("047", "2CO"), ("048", "GAL"),
    ("049", "EPH"), ("050", "PHP"), ("051", "COL"), ("052", "1TH"), ("053", "2TH"), ("054", "1TI"),
    ("055", "2TI"), ("056", "TIT"), ("057", "PHM"), ("058", "HEB"), ("059", "JAS"), ("060", "1PE"),
    ("061", "2PE"), ("062", "1JN"), ("063", "2JN"), ("064", "3JN"), ("065", "JUD"), ("066", "REV"),
    ("067", "TOB"), ("068", "JDT"), ("069", "ESG"), ("070", "WIS"), ("071", "SIR"), ("072", "BAR"),
    ("073", "LJE"), ("074", "S3Y"), ("075", "SUS"), ("076", "BEL"), ("077", "1MA"), ("078", "2MA"),
    ("079", "3MA"), ("080", "4MA"), ("081", "1ES"), ("082", "2ES"), ("083", "MAN"), ("084", "PS2"),
    ("085", "ODA"), ("086", "PSS"), ("087", "JSA"), ("088", "JDB"), ("089", "TBS"), ("090", "SST"),
    ("091", "DNT"), ("092", "BLT"), ("093", "XXA"), ("094", "XXB"), ("095", "XXC"), ("096", "XXD"),
    ("097", "XXE"), ("098", "XXF"), ("099", "XXG"), ("100", "FRT"), ("101", "BAK"), ("102", "OTH"),
    ("103", "3ES"), ("104", "EZA"), ("105", "5EZ"), ("106", "6EZ"), ("107", "INT"), ("108", "CNC"),
    ("109", "GLO"), ("110", "TDX"), ("111", "NDX"), ("112", "DAG"), ("113", "PS3"), ("114", "2BA"),
    ("115", "LBA"), ("116", "JUB"), ("117", "ENO"), ("118", "1MQ"), ("119", "2MQ"), ("120", "3MQ"),
    ("121", "REP"), ("122", "4BA"), ("123", "LAO")
  ]

/-- Embedding of bookCodeToNumber from helpers.ts: 3-letter abbreviations to
1..123 ordinals, in source order. -/
def bookCodeToNumberList : List (String × Nat) :=
  [
    ("GEN", 1), ("EXO", 2), ("LEV", 3), ("NUM", 4), ("DEU", 5), ("JOS", 6),
    ("JDG", 7), ("RUT", 8), ("1SA", 9), ("2SA", 10), ("1KI", 11), ("2KI", 12),
    ("1CH", 13), ("2CH", 14), ("EZR", 15), ("NEH", 16), ("EST", 17), ("JOB", 18),
    ("PSA", 19), ("PRO", 20), ("ECC", 21), ("SNG", 22), ("ISA", 23), ("JER", 24),
    ("LAM", 25), ("EZK", 26), ("DAN", 27), ("HOS", 28), ("JOL", 29), ("AMO", 30),
    ("OBA", 31), ("JON", 32), ("MIC", 33), ("NAM", 34), ("HAB", 35), ("ZEP", 36),
    ("HAG", 37), ("ZEC", 38), ("MAL", 39), ("MAT", 40), ("MRK", 41), ("LUK", 42),
    ("JHN", 43), ("ACT", 44), ("ROM", 45), ("1CO", 46), ("2CO", 47), ("GAL", 48),
    ("EPH", 49), ("PHP", 50), ("COL", 51), ("1TH", 52), ("2TH", 53), ("1TI", 54),
    ("2TI", 55), ("TIT", 56), ("PHM", 57), ("HEB", 58), ("JAS", 59), ("1PE", 60),
    ("2PE", 61), ("1JN", 62), ("2JN", 63), ("3JN", 64), ("JUD", 65), ("REV", 66),
    ("TOB", 67), ("JDT", 68), ("ESG", 69), ("WIS", 70), ("SIR", 71), ("BAR", 72),
    ("LJE", 73), ("S3Y", 74), ("SUS", 75), ("BEL", 76), ("1MA", 77), ("2MA", 78),
    ("3MA", 79), ("4MA", 80), ("1ES", 81), ("2ES", 82), ("MAN", 83), ("PS2", 84),
    ("ODA", 85), ("PSS", 86), ("JSA", 87), ("JDB", 88), ("TBS", 89), ("SST", 90),
    ("DNT", 91), ("BLT", 92), ("XXA", 93), ("XXB", 94), ("XXC", 95), ("XXD", 96),
    ("XXE", 97), ("XXF", 98), ("XXG", 99), ("FRT", 100), ("BAK", 101), ("OTH", 102),
    ("3ES", 103), ("EZA", 104), ("5EZ", 105), ("6EZ", 106), ("INT", 107), ("CNC", 108),
    ("GLO", 109), ("TDX", 110), ("NDX", 111), ("DAG", 112), ("PS3", 113), ("2BA", 114),
    ("LBA", 115), ("JUB", 116), ("ENO", 117), ("1MQ", 118), ("2MQ", 119), ("3MQ", 120),
    ("REP", 121), ("4BA", 122), ("LAO", 123)
  ]

/-! ## Reference codec (helpers.ts) -/

/-- Embedding of marbleLinkIdToU23003 from helpers.ts.  The JS falsiness test
on the input is subsumed by the length test (an empty string has length 0),
and the falsiness test on the book is the none case of the lookup. -/
def marbleLinkIdToU23003 (id : String) : String :=
  if id.length ≠ 14 then ""
  else
    let bookId := jsSubstr id 0 3
    let chapter := jsParseInt (jsSubstr id 3 6)
    let verse := jsParseInt (jsSubstr id 6 9)
    let word := jsParseInt (jsSubstrEnd id 11)
    match lookupStr bookMapList bookId with
    | none => ""
    | some book =>
      book ++ " " ++ showJsNum chapter ++ ":" ++ showJsNum verse ++ "!" ++ showJsHalf word

/-- Sum of the UTF-16 code units of a string; the book codes involved are
ASCII so Char.toNat agrees with JS charCodeAt. -/
def charCodeSum (s : String) : Nat :=
  s.data.foldl (fun acc c => acc + c.toNat) 0

/-- Embedding of getBookNumber from helpers.ts.  The JS truthiness test on the
looked-up value coincides with presence because every number in the table
is at least 1. -/
def getBookNumber (bookCode : String) : Nat :=
  match lookupStr bookCodeToNumberList bookCode with
  | some n => n
  | none => charCodeSum bookCode

/-- Deterministic matcher for the regex ^(\w+)\s+(\d+):(\d+)!(\d+)$ of
parseU23003Reference, in stages from the tail group up.  Each quantified
class is disjoint from the character required after it (word vs whitespace,
whitespace vs digit, digit vs colon, bang or end), so greedy maximal munch
without backtracking is exactly the regex semantics.  Stage (\d+)$. -/
def matchTail (w1 d1 d2 r : List Char) :
    Option (List Char × List Char × List Char × List Char) :=
  if r.takeWhile Char.isDigit = [] ∨ r.dropWhile Char.isDigit ≠ [] then none
  else some (w1, d1, d2, r.takeWhile Char.isDigit)

/-- Stage (\d+)! of the matcher. -/
def matchVerse (w1 d1 r : List Char) :
    Option (List Char × List Char × List Char × List Char) :=
  if r.takeWhile Char.isDigit = [] then none
  else if (r.dropWhile Char.isDigit).head? = some '!' then
    matchTail w1 d1 (r.takeWhile Char.isDigit) (r.dropWhile Char.isDigit).tail
  else none

/-- Stage (\d+): of the matcher. -/
def matchChapter (w1 r : List Char) :
    Option (List Char × List Char × List Char × List Char) :=
  if r.takeWhile Char.isDigit = [] then none
  else if (r.dropWhile Char.isDigit).head? = some ':' then
    matchVerse w1 (r.takeWhile Char.isDigit) (r.dropWhile Char.isDigit).tail
  else none

/-- Stage \s+ of the matcher. -/
def matchSpaces (w1 r : List Char) :
    Option (List Char × List Char × List Char × List Char) :=
  if r.takeWhile jsIsSpace = [] then none
  else matchChapter w1 (r.dropWhile jsIsSpace)

/-- Stage ^(\w+) of the matcher and entry point. -/
def matchU23003 (cs : List Char) :
    Option (List Char × List Char × List Char × List Char) :=
  if cs.takeWhile isWordChar = [] then none
  else matchSpaces (cs.takeWhile isWordChar) (cs.dropWhile isWordChar)

/-- Embedding of parseU23003Reference from helpers.ts, returning the tuple
(bookNum, chapterNum, verseNum, wordNum) on a match and none otherwise. -/
def parseU23003Reference (reference : String) : Option (Nat × Nat × Nat × Nat) :=
  match matchU23003 reference.data with
  | none => none
  | some (bk, d1, d2, d3) =>
    some (getBookNumber (String.mk bk), parseIntDigits d1, parseIntDigits d2, parseIntDigits d3)

/-! ## Identifier normalizer (helpers.ts) -/

/-- Characters of the constant SENSE_PREFIX from helpers.ts. -/
def sensePreChars : List Char := ['s', 'e', 'n', 's', 'e', '-']

/-- Test of the regex ^\d+$ on one segment. -/
def allDigitsSeg (s : List Char) : Bool :=
  !s.isEmpty && s.all Char.isDigit

/-- Advance past the common prefix of two segments, as the diffPos loop of
condenseSenseId; it stops at the first difference or when either segment
runs out (an out-of-range JS index compares unequal to any character). -/
def dropCommon : List Char → List Char → List Char × List Char
  | a :: as, b :: bs => if a = b then dropCommon as bs else (a :: as, b :: bs)
  | as, bs => (as, bs)

/-- The j-loop of condenseSenseId over the differing suffixes: every remaining
digit of the earlier segment must be 0 (else the pair fails), and hasNZ
accumulates whether the later segment shows a character other than 0 at one
of those positions (an exhausted later segment reads as undefined, which is
unequal to the character 0, as in JS). -/
def hierSuffix : List Char → List Char → Bool → Bool
  | [], _, hasNZ => hasNZ
  | p :: ps, curr, hasNZ =>
    if p = '0' then hierSuffix ps curr.tail (hasNZ || (curr.head? != some '0'))
    else false

/-- The adjacent-pair loop of pattern 1 of condenseSenseId. -/
def hierAdjacent : List (List Char) → Bool
  | a :: b :: rest =>
    (hierSuffix (dropCommon a b).1 (dropCommon a b).2 false) && hierAdjacent (b :: rest)
  | _ => true

/-- The guard loop of pattern 2 of condenseSenseId: some later segment is
strictly longer than its immediate predecessor. -/
def anyLonger : List (List Char) → Bool
  | a :: b :: rest => decide (a.length < b.length) || anyLonger (b :: rest)
  | _ => false

/-- The overlay loop of pattern 2 of condenseSenseId: each subsequent segment
replaces the trailing digits of the accumulator. -/
def overlaySegs : List Char → List (List Char) → List Char
  | acc, [] => acc
  | acc, c :: rest => overlaySegs (acc.take (acc.length - c.length) ++ c) rest

/-- Embedding of condenseSenseId from helpers.ts.  The JS falsiness test on
the input is subsumed by the prefix test. -/
def condenseSenseId (id : String) : String :=
  if !sensePreChars.isPrefixOf id.data then id
  else
    let parts := splitOn '-' id.data
    if parts.length < 2 then id
    else
      let numericParts := parts.drop 1
      if !numericParts.all allDigitsSeg then id
      else
        match numericParts with
        | [] => id
        | p0 :: tl =>
          if (p0 :: tl).all (fun p => p.length == p0.length) then
            if hierAdjacent (p0 :: tl) then
              String.mk (sensePreChars ++ (p0 :: tl).getLast (List.cons_ne_nil p0 tl))
            else id
          else
            if 2 ≤ (p0 :: tl).length then
              if anyLonger (p0 :: tl) then id
              else String.mk (sensePreChars ++ overlaySegs p0 tl)
            else id

/-- The scan of transformDomainCode that, once a non-digit has been seen,
restarts the code at the next digit; if no digit follows a non-digit the
original code is kept. -/
def scanUpdGo (orig : List Char) : List Char → Bool → List Char
  | [], _ => orig
  | c :: rest, found =>
    if !c.isDigit then scanUpdGo orig rest true
    else if found then c :: rest
    else scanUpdGo orig rest false

/-- Wrapper running the scan from the start of the code. -/
def scanUpd (cs : List Char) : List Char :=
  scanUpdGo cs cs false

/-- Consecutive complete 3-character chunks, as the chunking loop of
transformDomainCode (an incomplete trailing chunk is dropped). -/
def chunks3 : List Char → List (List Char)
  | c1 :: c2 :: c3 :: rest => [c1, c2, c3] :: chunks3 rest
  | _ => []

/-- Embedding of transformDomainCode from helpers.ts. -/
def transformDomainCode (code : String) : List String :=
  if code = "" then []
  else if code.length = 7 ∧ code.data.get? 3 = some '.' then
    [showJsNum (jsParseInt (jsSubstr code 0 3)), showJsNum (jsParseInt (jsSubstr code 4 7))]
  else
    let digitsOnly := (scanUpd code.data).filter Char.isDigit
    if digitsOnly = [] then []
    else if digitsOnly.length % 3 ≠ 0 then [code]
    else
      [String.intercalate "." ((chunks3 digitsOnly).map (fun ch => natToString (parseIntDigits ch)))]

/-! ## Data model (convert-marble-lexicon.ts interfaces) -/

/-- An occurrence: a U23003-formatted scripture reference. -/
structure Occurrence where
  id : String
  deriving DecidableEq

/-- A domain annotation on a sense. -/
structure Domain where
  taxonomy : String
  code : String
  value : String
  deriving DecidableEq

/-- A flattened sense.  conIndex none models the absent (undefined) conIndex
of a lexical sense; occurrences none models an undefined occurrence array. -/
structure Sense where
  id : String
  baseFormIndex : Nat
  lexIndex : Nat
  conIndex : Option Nat
  definition : String
  glosses : List String
  occurrences : Option (List Occurrence)
  domains : Option (List Domain)
  deriving DecidableEq

/-- An entry of one language (the interface field is named lemma, renamed here
because lemma is a Lean keyword). -/
structure Entry where
  lemmaText : String
  id : String
  senses : List Sense
  strongsCodes : Option (List String)
  deriving DecidableEq

/-- The lemma-to-entry object of one language, in insertion order. -/
abbrev LangEntries := List (String × Entry)

/-- The entriesByLanguage object, in insertion order. -/
abbrev EntriesState := List (String × LangEntries)

/-! ## Source document model (the parsed XML convert-marble-lexicon.ts walks)

Each structure carries exactly the attributes and child text the extractor
reads from the DOM.  A getElementsByTagName(...)[0] that may be absent is an
Option; repeated children are lists in document order.  An absent container
element and a present container with no children extract to the same data,
so containers whose presence only changes warnings are plain lists. -/

/-- A LEXDomain / LEXSubDomain / LEXCoreDomain / CONDomain element: its Code
attribute and its text content. -/
structure DomainElem where
  code : String
  value : String

/-- A LEXSense or CONSense element: its LanguageCode attribute, the text of
its DefinitionShort child when present, and the texts of its Gloss children. -/
structure SenseElem where
  languageCode : String
  definitionShort : Option String
  glosses : List String

/-- A ContextualMeaning element. -/
structure ConMeaningElem where
  id : String
  conDomains : List DomainElem
  conReferences : List String
  conSenses : List SenseElem

/-- A LEXMeaning element.  lexSubDomains are the LEXSubDomain children of the
LEXSubDomains container (empty when the container is absent). -/
structure LexMeaningElem where
  id : String
  isBiblicalTerm : String
  lexSubDomains : List DomainElem
  lexDomains : List DomainElem
  lexCoreDomains : List DomainElem
  lexSenses : List SenseElem
  conMeaningGroups : List (List ConMeaningElem)

/-- A BaseForm element. -/
structure BaseFormElem where
  id : String
  lexMeanings : List LexMeaningElem

/-- A Lexicon_Entry element.  version is the parseInt of the Version attribute
defaulted to 0 (none models NaN from a non-numeric attribute, on which the
JS comparisons below are false). -/
structure LexiconEntryElem where
  lemmaAttr : String
  idAttr : String
  version : Option Int
  strongs : List String
  baseForms : List BaseFormElem

/-- Constants DICTIONARY_TYPE and ENTRY_VERSION from helpers.ts. -/
def greekDict : String := "SDBG"

/-- The SDBH tag of DICTIONARY_TYPE. -/
def hebrewDict : String := "SDBH"

/-- ENTRY_VERSION.MIN_LEXICAL. -/
def minLexicalVersion : Int := 3

/-- ENTRY_VERSION.MIN_CONTEXTUAL. -/
def minContextualVersion : Int := 5

/-- The JS comparison entryVersion < k, false on NaN. -/
def versionBelow (v : Option Int) (k : Int) : Prop :=
  match v with
  | some n => n < k
  | none => False

instance (v : Option Int) (k : Int) : Decidable (versionBelow v k) := by
  unfold versionBelow; exact match v with
  | some n => inferInstanceAs (Decidable (n < k))
  | none => inferInstanceAs (Decidable False)

/-- getTaxonomyId from convert-marble-lexicon.ts. -/
def getTaxonomyId (dictionaryType senseType : String) : String :=
  dictionaryType ++ "-" ++ senseType

/-! ## Extractor helpers (helpers.ts extractDefinitionAndGlosses, domain
extraction of convert-marble-lexicon.ts processFile) -/

/-- Embedding of extractDefinitionAndGlosses from helpers.ts: the trimmed
DefinitionShort text (empty when absent) and the trimmed, non-empty,
first-occurrence-deduplicated gloss texts. -/
def extractDefinitionAndGlosses (el : SenseElem) : String × List String :=
  (match el.definitionShort with
   | some t => jsTrim t
   | none => "",
   (el.glosses.map jsTrim).foldl
     (fun acc g => if g ≠ "" ∧ g ∉ acc then acc ++ [g] else acc) [])

/-- The per-element-list domain extraction loop shared by extractDomains and
extractCoreDomains: elements whose transformed code list is empty are
skipped (with a warning in JS), the others contribute one Domain per code. -/
def domainsOfElems (tax : String) (elems : List DomainElem) : List Domain :=
  elems.foldl
    (fun acc e => acc ++ (transformDomainCode e.code).map
      (fun c => { taxonomy := tax, code := c, value := jsTrim e.value })) []

/-- extractDomains with the subdomain fallback: subdomain-derived domains are
used when non-empty, else the flat domain list is processed. -/
def extractDomainsLex (tax : String) (m : LexMeaningElem) : List Domain :=
  let subs := domainsOfElems tax m.lexSubDomains
  if subs ≠ [] then subs else domainsOfElems tax m.lexDomains

/-- combineDomains from processFile: concatenate, drop domains with an empty
code, deduplicate by taxonomy ++ code keeping the first, undefined when
nothing remains. -/
def combineDomains (arrays : List (List Domain)) : Option (List Domain) :=
  let all := arrays.flatten.filter (fun d => d.code ≠ "")
  let combined := all.foldl
    (fun acc d =>
      if acc.any (fun e => e.taxonomy ++ e.code = d.taxonomy ++ d.code) then acc
      else acc ++ [d]) []
  if combined = [] then none else some combined

/-- Last-first deduplication of a string list keeping first occurrences, as
iteration over a JS Set built by insertion. -/
def dedupeStrings (l : List String) : List String :=
  l.foldl (fun acc s => if s ∈ acc then acc else acc ++ [s]) []

/-- The even-final-digit test ['0','2','4','6','8'].includes(id[13]) used for
CONReference and MARBLELink ids. -/
def evenDigitAt13 (cs : List Char) : Bool :=
  match cs.get? 13 with
  | some c => ['0', '2', '4', '6', '8'].contains c
  | none => false

/-- Embedding of extractCONReferences from processFile: trim and cut each
reference text to 14 characters, keep only well-formed all-digit ids with an
even final digit that convert to a U23003 reference, then deduplicate. -/
def extractCONRefs (refs : List String) : List Occurrence :=
  let occs := refs.foldl
    (fun acc r =>
      let referenceId := String.mk ((jsTrim r).data.take 14)
      if ¬ (referenceId.length = 14 ∧ referenceId.data.all Char.isDigit) then acc
      else if !evenDigitAt13 referenceId.data then acc
      else
        let u := marbleLinkIdToU23003 referenceId
        if u = "" then acc else acc ++ [u]) []
  (dedupeStrings occs).map (fun id => { id := id })

/-! ## Extractor (convert-marble-lexicon.ts processFile) -/

/-- A new Entry as created on first sight of a lemma in a language. -/
def newEntry (lemmaKey entryId : String) (strongs : List String) : Entry :=
  { lemmaText := lemmaKey
    id := "entry-" ++ entryId
    senses := []
    strongsCodes := if strongs = [] then none else some strongs }

/-- Push one sense into one language map: create the entry on first sight of
the lemma, else append to the existing entry's senses. -/
def pushInLang (lemmaKey entryId : String) (strongs : List String) (s : Sense) :
    LangEntries → LangEntries
  | [] => [(lemmaKey, { newEntry lemmaKey entryId strongs with senses := [s] })]
  | (k, e) :: rest =>
    if k = lemmaKey then (k, { e with senses := e.senses ++ [s] }) :: rest
    else (k, e) :: pushInLang lemmaKey entryId strongs s rest

/-- Push one sense into the state under its language: create the language map
on first sight of the language. -/
def pushSense (lang lemmaKey entryId : String) (strongs : List String) (s : Sense) :
    EntriesState → EntriesState
  | [] => [(lang, pushInLang lemmaKey entryId strongs s [])]
  | (l, le) :: rest =>
    if l = lang then (l, pushInLang lemmaKey entryId strongs s le) :: rest
    else (l, le) :: pushSense lang lemmaKey entryId strongs s rest

/-- The LEXSense loop of processFile: senses without a language code are
skipped, the others are pushed with positional index (bfIdx, lmIdx, none). -/
def processLexSenses (lemmaKey entryId baseFormId lexMeaningId : String)
    (strongs : List String) (bfIdx lmIdx : Nat) (doms : Option (List Domain)) :
    List SenseElem → EntriesState → EntriesState
  | [], st => st
  | el :: rest, st =>
    if el.languageCode = "" then
      processLexSenses lemmaKey entryId baseFormId lexMeaningId strongs bfIdx lmIdx doms rest st
    else
      let dg := extractDefinitionAndGlosses el
      let st1 := pushSense el.languageCode lemmaKey entryId strongs
        { id := "sense-" ++ entryId ++ "-" ++ baseFormId ++ "-" ++ lexMeaningId
          baseFormIndex := bfIdx
          lexIndex := lmIdx
          conIndex := none
          definition := dg.1
          glosses := dg.2
          occurrences := some []
          domains := doms } st
      processLexSenses lemmaKey entryId baseFormId lexMeaningId strongs bfIdx lmIdx doms rest st1

/-- The CONSense loop of one ContextualMeaning.  The JS expression
conOccurrences.length > 0 ? [...conOccurrences] : [] is value-equal to
conOccurrences itself. -/
def processConSenses (lemmaKey entryId baseFormId lexMeaningId conMeaningId : String)
    (strongs : List String) (bfIdx lmIdx cmIdx : Nat) (occs : List Occurrence)
    (doms : Option (List Domain)) :
    List SenseElem → EntriesState → EntriesState
  | [], st => st
  | el :: rest, st =>
    if el.languageCode = "" then
      processConSenses lemmaKey entryId baseFormId lexMeaningId conMeaningId strongs
        bfIdx lmIdx cmIdx occs doms rest st
    else
      let dg := extractDefinitionAndGlosses el
      let st1 := pushSense el.languageCode lemmaKey entryId strongs
        { id := "sense-" ++ entryId ++ "-" ++ baseFormId ++ "-" ++ lexMeaningId ++ "-" ++ conMeaningId
          baseFormIndex := bfIdx
          lexIndex := lmIdx
          conIndex := some cmIdx
          definition := dg.1
          glosses := dg.2
          occurrences := some occs
          domains := doms } st
      processConSenses lemmaKey entryId baseFormId lexMeaningId conMeaningId strongs
        bfIdx lmIdx cmIdx occs doms rest st1

/-- The ContextualMeaning loop inside one CONMeanings container: meanings
without an Id are skipped; the container index cmIdx is the conIndex of all
senses of the container. -/
def processConMeanings (dict lemmaKey entryId baseFormId lexMeaningId : String)
    (strongs : List String) (bfIdx lmIdx cmIdx : Nat) (coreDoms : List Domain) :
    List ConMeaningElem → EntriesState → EntriesState
  | [], st => st
  | cm :: rest, st =>
    if cm.id = "" then
      processConMeanings dict lemmaKey entryId baseFormId lexMeaningId strongs
        bfIdx lmIdx cmIdx coreDoms rest st
    else
      let conDoms := domainsOfElems (getTaxonomyId dict "Contextual") cm.conDomains
      let occs := extractCONRefs cm.conReferences
      let st1 := processConSenses lemmaKey entryId baseFormId lexMeaningId cm.id strongs
        bfIdx lmIdx cmIdx occs (combineDomains [conDoms, coreDoms]) cm.conSenses st
      processConMeanings dict lemmaKey entryId baseFormId lexMeaningId strongs
        bfIdx lmIdx cmIdx coreDoms rest st1

/-- The CONMeanings container loop, numbering containers by cmIdx. -/
def processConGroups (dict lemmaKey entryId baseFormId lexMeaningId : String)
    (strongs : List String) (bfIdx lmIdx : Nat) (coreDoms : List Domain) :
    Nat → List (List ConMeaningElem) → EntriesState → EntriesState
  | _, [], st => st
  | cmIdx, g :: rest, st =>
    let st1 := processConMeanings dict lemmaKey entryId baseFormId lexMeaningId strongs
      bfIdx lmIdx cmIdx coreDoms g st
    processConGroups dict lemmaKey entryId baseFormId lexMeaningId strongs
      bfIdx lmIdx coreDoms (cmIdx + 1) rest st1

/-- Processing of one LEXMeaning of processFile: the SDBH biblical-term
exclusion, the missing-Id skip, domain extraction, the LEXSense loop, the
contextual version gate, and the CONMeanings loops. -/
def processLexMeaning (dict lemmaKey entryId baseFormId : String)
    (version : Option Int) (strongs : List String) (bfIdx lmIdx : Nat)
    (m : LexMeaningElem) (st : EntriesState) : EntriesState :=
  if dict = hebrewDict ∧ jsUpper m.isBiblicalTerm ∈ ["X", "N"] then st
  else if m.id = "" then st
  else
    let lexDoms := extractDomainsLex (getTaxonomyId dict "Lexical") m
    let coreDoms := domainsOfElems (getTaxonomyId dict "Contextual") m.lexCoreDomains
    let st1 := processLexSenses lemmaKey entryId baseFormId m.id strongs bfIdx lmIdx
      (combineDomains [lexDoms, coreDoms]) m.lexSenses st
    if dict ≠ greekDict ∧ versionBelow version minContextualVersion then st1
    else processConGroups dict lemmaKey entryId baseFormId m.id strongs bfIdx lmIdx
      coreDoms 0 m.conMeaningGroups st1

/-- The LEXMeaning loop of one BaseForm, numbering meanings by lmIdx. -/
def processLexMeanings (dict lemmaKey entryId baseFormId : String)
    (version : Option Int) (strongs : List String) (bfIdx : Nat) :
    Nat → List LexMeaningElem → EntriesState → EntriesState
  | _, [], st => st
  | lmIdx, m :: rest, st =>
    let st1 := processLexMeaning dict lemmaKey entryId baseFormId version strongs bfIdx lmIdx m st
    processLexMeanings dict lemmaKey entryId baseFormId version strongs bfIdx (lmIdx + 1) rest st1

/-- The BaseForm loop of one entry: base forms without an Id are skipped (yet
still numbered, as in the JS for loop). -/
def processBaseForms (dict lemmaKey entryId : String) (version : Option Int)
    (strongs : List String) :
    Nat → List BaseFormElem → EntriesState → EntriesState
  | _, [], st => st
  | bfIdx, bf :: rest, st =>
    let st1 :=
      if bf.id = "" then st
      else processLexMeanings dict lemmaKey entryId bf.id version strongs bfIdx 0 bf.lexMeanings st
    processBaseForms dict lemmaKey entryId version strongs (bfIdx + 1) rest st1

/-- Processing of one Lexicon_Entry of processFile: the missing lemma/id skip,
the SDBH minimum-lexical-version exclusion, extraction of the Strong codes,
and the base-form loop. -/
def processLexiconEntry (dict : String) (e : LexiconEntryElem) (st : EntriesState) :
    EntriesState :=
  if e.lemmaAttr = "" ∨ e.idAttr = "" then st
  else if dict ≠ greekDict ∧ versionBelow e.version minLexicalVersion then st
  else
    let strongs := (e.strongs.map jsTrim).filter (fun s => s ≠ "")
    processBaseForms dict e.lemmaAttr e.idAttr e.version strongs 0 e.baseForms st

/-! ## Cross-reference linker (convert-marble-lexicon.ts processLexicalLink) -/

/-- The three continue-tests of the sense loop of processLexicalLink, negated:
a sense matches when its baseFormIndex and lexIndex equal the parsed numbers
(a NaN index equals nothing) and, only when the link carries a contextual
part, its conIndex equals the parsed contextual number (an absent conIndex
or a NaN number never equals). -/
def senseIndexMatch (bf lm : Option Nat) (hasCon : Bool) (cm : Option Nat)
    (s : Sense) : Bool :=
  bf == some s.baseFormIndex && lm == some s.lexIndex &&
  (!hasCon ||
    match cm, s.conIndex with
    | some a, some b => a == b
    | _, _ => false)

/-- The occurrence push of processLexicalLink: an undefined occurrence array
is replaced by an empty one, then the reference is appended. -/
def addOcc (s : Sense) (ref : String) : Sense :=
  { s with occurrences := some ((s.occurrences.getD []) ++ [{ id := ref }]) }

/-- The sense loop of processLexicalLink with its break: the reference is
appended to the first matching sense only. -/
def attachFirst (pred : Sense → Bool) (ref : String) : List Sense → List Sense × Bool
  | [] => ([], false)
  | s :: rest =>
    if pred s then (addOcc s ref :: rest, true)
    else
      let r := attachFirst pred ref rest
      (s :: r.1, r.2)

/-- Update of the one entry stored under the lemma key of one language (JS
object keys are unique, so the first hit is the entry). -/
def linkLang (lemmaKey : String) (pred : Sense → Bool) (ref : String) :
    LangEntries → LangEntries × Bool
  | [] => ([], false)
  | (k, e) :: rest =>
    if k = lemmaKey then
      let r := attachFirst pred ref e.senses
      ((k, { e with senses := r.1 }) :: rest, r.2)
    else
      let r := linkLang lemmaKey pred ref rest
      ((k, e) :: r.1, r.2)

/-- The language loop of processLexicalLink; a language without the lemma is
left unchanged (the JS membership pre-test only skips the inner loop). -/
def linkAllLangs (lemmaKey : String) (pred : Sense → Bool) (ref : String) :
    EntriesState → EntriesState × Bool
  | [] => ([], false)
  | (lang, le) :: rest =>
    let r1 := linkLang lemmaKey pred ref le
    let r2 := linkAllLangs lemmaKey pred ref rest
    ((lang, r1.1) :: r2.1, r1.2 || r2.2)

/-- Embedding of processLexicalLink from convert-marble-lexicon.ts: split the
link text on colons, reject fewer than three parts, a mismatched dictionary
tag, an empty lemma or sense index, or a sense index length other than 6 or
9; then append the reference to the first matching sense of the lemma's
entry in every language.  Returns the new state and the updatedAny flag. -/
def processLexicalLink (linkText reference : String) (ebl : EntriesState)
    (dict : String) : EntriesState × Bool :=
  match splitOn ':' linkText.data with
  | p0 :: p1 :: p2 :: _ =>
    if jsUpper (String.mk p0) ≠ dict then (ebl, false)
    else if p1 = [] ∨ p2 = [] then (ebl, false)
    else if p2.length ≠ 6 ∧ p2.length ≠ 9 then (ebl, false)
    else
      let bf := jsParseInt (String.mk (p2.take 3))
      let lm := jsParseInt (String.mk ((p2.drop 3).take 3))
      let hasCon := p2.length == 9
      let cm := if hasCon then jsParseInt (String.mk ((p2.drop 6).take 3)) else none
      linkAllLangs (String.mk p1) (senseIndexMatch bf lm hasCon cm) reference ebl
  | _ => (ebl, false)

/-- The sense-index characters of a link text (the third colon-separated
part), used to state which senses a given link may touch. -/
def linkSenseIndexChars (t : String) : List Char :=
  match splitOn ':' t.data with
  | _ :: _ :: p2 :: _ => p2
  | _ => []

/-- The match predicate a given link text induces on senses. -/
def linkPred (t : String) : Sense → Bool :=
  let p2 := linkSenseIndexChars t
  senseIndexMatch (jsParseInt (String.mk (p2.take 3)))
    (jsParseInt (String.mk ((p2.drop 3).take 3)))
    (p2.length == 9)
    (if p2.length == 9 then jsParseInt (String.mk ((p2.drop 6).take 3)) else none)

/-- Frame relation on one sense: either untouched, or exactly the decoded
reference appended to its occurrence set. -/
def senseUnchangedOrAppended (ref : String) (old new : Sense) : Prop :=
  new = old ∨ new = addOcc old ref

/-- Number of positions at which the aligned sense lists differ. -/
def countChanged (olds news : List Sense) : Nat :=
  ((olds.zip news).filter (fun p => p.1 ≠ p.2)).length

/-- Total number of changed senses across the aligned entries of a language. -/
def changedInLang (old new : LangEntries) : Nat :=
  ((old.zip new).map (fun p => countChanged p.1.2.senses p.2.2.senses)).sum

/-- Frame relation on one sense relative to a match predicate: untouched, or
matched by the predicate and with exactly the reference appended. -/
def senseRel (pred : Sense → Bool) (ref : String) (old new : Sense) : Prop :=
  new = old ∨ (pred old = true ∧ new = addOcc old ref)

/-- Frame relation on one keyed entry: the key and every field except the
sense list are unchanged, and the senses are pointwise in senseRel. -/
def entryRel (pred : Sense → Bool) (ref : String) (p q : String × Entry) : Prop :=
  q.1 = p.1 ∧ q.2.lemmaText = p.2.lemmaText ∧ q.2.id = p.2.id ∧
  q.2.strongsCodes = p.2.strongsCodes ∧
  List.Forall₂ (senseRel pred ref) p.2.senses q.2.senses

/-- Frame relation on one language: same language key, entries pointwise in
entryRel, and at most one changed sense in the whole language. -/
def langRel (pred : Sense → Bool) (ref : String) (a b : String × LangEntries) : Prop :=
  b.1 = a.1 ∧ List.Forall₂ (entryRel pred ref) a.2 b.2 ∧ changedInLang a.2 b.2 ≤ 1

/-! ## Deduplicator / validator (convert-marble-lexicon.ts) -/

/-- Step 1 of verifyAndRemoveDuplicateSenses: condense every sense id. -/
def condenseAllIds (st : EntriesState) : EntriesState :=
  st.map (fun le => (le.1, le.2.map (fun ke => (ke.1,
    { ke.2 with senses := ke.2.senses.map (fun s => { s with id := condenseSenseId s.id }) }))))

/-- The combine branch of removeDuplicateSensesWithinEntry: fill in the
missing definition or glosses of the retained sense from the duplicate. -/
def combineSenses (ex s : Sense) : Sense :=
  { ex with
    definition := if ex.definition = "" ∧ s.definition ≠ "" then s.definition else ex.definition
    glosses := if ex.glosses = [] ∧ s.glosses ≠ [] then s.glosses else ex.glosses }

/-- One step of the uniqueSenses accumulation of
removeDuplicateSensesWithinEntry: a sense whose id is already present is
combined into the retained sense when at most one of the pair carries a
definition and at most one carries glosses, else dropped. -/
def upsertSense (acc : List Sense) (s : Sense) : List Sense :=
  match acc with
  | [] => [s]
  | e :: rest =>
    if e.id = s.id then
      (if (e.definition = "" ∨ s.definition = "") ∧ (e.glosses = [] ∨ s.glosses = []) then
        combineSenses e s
      else e) :: rest
    else e :: upsertSense rest s

/-- Embedding of removeDuplicateSensesWithinEntry applied to one entry:
Object.values of the uniqueSenses map is the first-occurrence order. -/
def dedupEntrySenses (e : Entry) : Entry :=
  { e with senses := e.senses.foldl upsertSense [] }

/-- Embedding of removeDuplicateSensesWithinEntry over the whole state. -/
def removeDupWithin (st : EntriesState) : EntriesState :=
  st.map (fun le => (le.1, le.2.map (fun ke => (ke.1, dedupEntrySenses ke.2))))

/-- The sense-id uniqueness loop of one entry, threading the set of sense ids
seen so far in the language; the JS Set is modelled by a list. -/
def checkSensesGo : List Sense → List String → Except String (List String)
  | [], seen => Except.ok seen
  | s :: rest, seen =>
    if s.id ∈ seen then Except.error ("Duplicate sense ID found: " ++ s.id)
    else checkSensesGo rest (s.id :: seen)

/-- The per-language uniqueness loop of verifyAndRemoveDuplicateSenses over
entries, threading entry-id and sense-id sets. -/
def checkEntriesGo : List (String × Entry) → List String → List String → Except String Unit
  | [], _, _ => Except.ok ()
  | (_, e) :: rest, eIds, sIds =>
    if e.id ∈ eIds then Except.error ("Duplicate entry ID found: " ++ e.id)
    else
      match checkSensesGo e.senses sIds with
      | Except.error msg => Except.error msg
      | Except.ok sIds2 => checkEntriesGo rest (e.id :: eIds) sIds2

/-- The language loop of step 3 of verifyAndRemoveDuplicateSenses. -/
def checkLangsGo : EntriesState → Except String Unit
  | [] => Except.ok ()
  | (_, le) :: rest =>
    match checkEntriesGo le [] [] with
    | Except.error m => Except.error m
    | Except.ok _ => checkLangsGo rest

/-- Embedding of verifyAndRemoveDuplicateSenses: condense all sense ids,
remove duplicates within each entry, then throw (error) on any duplicate
entry or sense id within a language; the JS throw aborts with the mutations
already applied, so the resulting state on success is the mutated state. -/
def verifyAndRemoveDuplicateSenses (st : EntriesState) : Except String EntriesState :=
  let st2 := removeDupWithin (condenseAllIds st)
  match checkLangsGo st2 with
  | Except.error m => Except.error m
  | Except.ok _ => Except.ok st2

/-- Entry ids of a language in iteration order. -/
def entryIdsOf (le : LangEntries) : List String :=
  le.map (fun ke => ke.2.id)

/-- Sense ids of a language in iteration order. -/
def senseIdsOf (le : LangEntries) : List String :=
  (le.map (fun ke => ke.2.senses.map Sense.id)).flatten

/-- The collision condition of the claim: within some language two distinct
entries share an entry id or two distinct senses share a sense id. -/
def hasIdCollision (st : EntriesState) : Prop :=
  ∃ p ∈ st, ¬ (entryIdsOf p.2).Nodup ∨ ¬ (senseIdsOf p.2).Nodup

instance (st : EntriesState) : Decidable (hasIdCollision st) := by
  unfold hasIdCollision
  infer_instance

/-- The filter predicate of removeEmptyEntriesAndSenses: a sense is kept when
its definition is truthy (non-empty) or it has at least one gloss. -/
def keepSense (s : Sense) : Bool :=
  s.definition != "" || s.glosses.length != 0

/-- Embedding of the state mutation of removeEmptyEntriesAndSenses: drop the
empty senses of every entry, then drop entries left without senses.  The
returned statistics are reporting only and are omitted. -/
def removeEmptyEntriesAndSenses (st : EntriesState) : EntriesState :=
  st.map (fun le => (le.1,
    (le.2.map (fun ke => (ke.1, { ke.2 with senses := ke.2.senses.filter keepSense }))).filter
      (fun ke => !ke.2.senses.isEmpty)))

/-! ## Specification-side reformulations used in theorem statements -/

/-- The hierarchical condition of the specification for one adjacent pair of
equal-length segments: from the first differing position on, the earlier
segment is all zeros and the later segment shows at least one non-zero. -/
def specHierPair (prev curr : List Char) : Bool :=
  (dropCommon prev curr).1.all (fun c => c == '0') &&
  (dropCommon prev curr).2.any (fun c => c != '0')

/-- The hierarchical condition over all adjacent pairs. -/
def specHierChain : List (List Char) → Bool
  | a :: b :: rest => specHierPair a b && specHierChain (b :: rest)
  | _ => true

/-- Hyphen-joined segments, the shape of a multi-segment sense id body. -/
def joinHyphen : List (List Char) → List Char
  | [] => []
  | [s] => s
  | s :: rest => s ++ '-' :: joinHyphen rest

/-! ## Concrete fixtures used for witnesses and counterexamples -/

/-- A language-tagged sense element with a definition and one gloss. -/
def senseElemEx : SenseElem :=
  { languageCode := "en", definitionShort := some "a definition", glosses := ["g"] }

/-- A lexical meaning carrying one English sense and nothing else. -/
def lexMeaningEx : LexMeaningElem :=
  { id := "m1", isBiblicalTerm := "Y", lexSubDomains := [], lexDomains := [],
    lexCoreDomains := [], lexSenses := [senseElemEx], conMeaningGroups := [] }

/-- A lexicon entry with version 2 and one base form. -/
def entryElemEx : LexiconEntryElem :=
  { lemmaAttr := "aleph", idAttr := "001", version := some 2, strongs := [],
    baseForms := [{ id := "b1", lexMeanings := [lexMeaningEx] }] }

/-- A contextual sense (conIndex present) with no occurrences yet. -/
def conSenseEx : Sense :=
  { id := "sense-1-b1-m1-c1", baseFormIndex := 0, lexIndex := 0, conIndex := some 0,
    definition := "a definition", glosses := [], occurrences := some [], domains := none }

/-- An entry holding only the contextual sense conSenseEx. -/
def entryConEx : Entry :=
  { lemmaText := "aleph", id := "entry-1", senses := [conSenseEx], strongsCodes := none }

/-- A one-language state holding only entryConEx under the lemma aleph. -/
def stateConEx : EntriesState := [("en", [("aleph", entryConEx)])]

/-- Two entries of one language sharing the entry id entry-1 with disjoint
sense ids; the uniqueness check must reject this state. -/
def stateDupEx : EntriesState :=
  [("en",
    [("aleph", { lemmaText := "aleph", id := "entry-1", senses := [], strongsCodes := none }),
     ("beth", { lemmaText := "beth", id := "entry-1", senses := [], strongsCodes := none })])]

/-- A collision-free one-language state with one entry and one sense. -/
def stateOkEx : EntriesState := [("en", [("aleph", entryConEx)])]

/-- A sense with no definition and no glosses: pruned by the empty-pruning
stage. -/
def emptySenseEx : Sense :=
  { id := "sense-2-b1-m2", baseFormIndex := 0, lexIndex := 1, conIndex := none,
    definition := "", glosses := [], occurrences := some [], domains := none }

/-- A state where one entry has one kept and one pruned sense, and one entry
only has a pruned sense. -/
def stateEmptyEx : EntriesState :=
  [("en",
    [("aleph", { lemmaText := "aleph", id := "entry-1",
                 senses := [conSenseEx, emptySenseEx], strongsCodes := none }),
     ("beth", { lemmaText := "beth", id := "entry-2",
                senses := [emptySenseEx], strongsCodes := none })])]

/-- The entry aleph after pruning: only the non-empty sense remains. -/
def prunedEntryEx : Entry :=
  { lemmaText := "aleph", id := "entry-1", senses := [conSenseEx], strongsCodes := none }

/-! ## Lemmas: decimal rendering and parsing -/

theorem parseIntDigits_snoc (xs : List Char) (c : Char) :
    parseIntDigits (xs ++ [c]) = parseIntDigits xs * 10 + (c.toNat - 48) := by
  unfold parseIntDigits
  rw [List.foldl_append]
  rfl

theorem digitChar_isDigit {n : Nat} (h : n < 10) : (Nat.digitChar n).isDigit = true := by
  interval_cases n <;> decide

theorem digitChar_toNat {n : Nat} (h : n < 10) : (Nat.digitChar n).toNat = 48 + n := by
  interval_cases n <;> decide

theorem toDecimalAux_spec :
    ∀ fuel n, n < fuel →
      toDecimalAux fuel n ≠ [] ∧ (∀ c ∈ toDecimalAux fuel n, c.isDigit = true) ∧
        parseIntDigits (toDecimalAux fuel n) = n := by
  intro fuel
  induction fuel with
  | zero => intro n h; omega
  | succ f ih =>
    intro n h
    unfold toDecimalAux
    by_cases h10 : n < 10
    · rw [if_pos h10]
      refine ⟨by simp, ?_, ?_⟩
      · intro c hc
        simp at hc
        subst hc
        exact digitChar_isDigit h10
      · have : ([] : List Char) ++ [Nat.digitChar n] = [Nat.digitChar n] := by simp
        rw [← this, parseIntDigits_snoc, digitChar_toNat h10]
        simp only [parseIntDigits, List.foldl_nil]
        omega
    · rw [if_neg h10]
      have hrec : n / 10 < f := by omega
      obtain ⟨hne, hdig, hval⟩ := ih (n / 10) hrec
      refine ⟨by simp, ?_, ?_⟩
      · intro c hc
        rcases List.mem_append.mp hc with h1 | h1
        · exact hdig c h1
        · simp at h1
          subst h1
          exact digitChar_isDigit (Nat.mod_lt n (by omega))
      · rw [parseIntDigits_snoc, hval, digitChar_toNat (Nat.mod_lt n (by omega))]
        omega

theorem natToString_ne_nil (n : Nat) : (natToString n).data ≠ [] :=
  (toDecimalAux_spec (n + 1) n (Nat.lt_succ_self n)).1

theorem natToString_digits (n : Nat) : ∀ c ∈ (natToString n).data, c.isDigit = true :=
  (toDecimalAux_spec (n + 1) n (Nat.lt_succ_self n)).2.1

theorem parseIntDigits_natToString (n : Nat) : parseIntDigits (natToString n).data = n :=
  (toDecimalAux_spec (n + 1) n (Nat.lt_succ_self n)).2.2

theorem jsParseInt_digits {cs : List Char} (hne : cs ≠ [])
    (hd : ∀ c ∈ cs, c.isDigit = true) :
    jsParseInt (String.mk cs) = some (parseIntDigits cs) := by
  unfold jsParseInt
  have : (String.mk cs).data = cs := rfl
  rw [this, List.takeWhile_eq_self_iff.mpr hd, if_neg hne]

theorem parseIntDigits_mod_two {cs : List Char} (c : Char) (hd : ∀ x ∈ cs, x.isDigit = true)
    (hlast : cs.getLast? = some c) : parseIntDigits cs % 2 = c.toNat % 2 := by
  induction cs using List.reverseRecOn with
  | nil => simp at hlast
  | append_singleton xs x _ =>
    have hx : x = c := by
      rw [List.getLast?_append] at hlast
      simpa using hlast
    subst hx
    rw [parseIntDigits_snoc]
    have hx48 : 48 ≤ x.toNat ∧ x.toNat ≤ 57 := by
      have hxd : x.isDigit = true := hd x (by simp)
      simp [Char.isDigit] at hxd
      exact hxd
    omega

/-! ## Lemmas: takeWhile and dropWhile over concatenations -/

theorem takeWhile_append_stop {p : Char → Bool} :
    ∀ (xs ys : List Char), (∀ c ∈ xs, p c = true) →
      (ys = [] ∨ ∃ y t, ys = y :: t ∧ p y = false) →
      (xs ++ ys).takeWhile p = xs := by
  intro xs ys h1 h2
  induction xs with
  | nil =>
    rcases h2 with h | ⟨y, t, rfl, hy⟩
    · simp [h]
    · simp [List.takeWhile, hy]
  | cons x xs ih =>
    have hx : p x = true := h1 x (by simp)
    simp only [List.cons_append, List.takeWhile_cons, hx, if_true]
    rw [ih (fun c hc => h1 c (by simp [hc]))]

theorem dropWhile_append_stop {p : Char → Bool} :
    ∀ (xs ys : List Char), (∀ c ∈ xs, p c = true) →
      (ys = [] ∨ ∃ y t, ys = y :: t ∧ p y = false) →
      (xs ++ ys).dropWhile p = ys := by
  intro xs ys h1 h2
  induction xs with
  | nil =>
    rcases h2 with h | ⟨y, t, rfl, hy⟩
    · simp [h]
    · simp [List.dropWhile, hy]
  | cons x xs ih =>
    have hx : p x = true := h1 x (by simp)
    simp only [List.cons_append, List.dropWhile_cons, hx, if_true]
    exact ih (fun c hc => h1 c (by simp [hc]))

/-! ## Lemmas: string plumbing -/

theorem string_eta (s : String) : String.mk s.data = s := rfl

theorem mk_append (a b : List Char) : String.mk a ++ String.mk b = String.mk (a ++ b) := rfl

theorem lookupStr_mem {α : Type} :
    ∀ (l : List (String × α)) (k : String) (v : α),
      lookupStr l k = some v → (k, v) ∈ l := by
  intro l
  induction l with
  | nil => intro k v h; simp [lookupStr] at h
  | cons p rest ih =>
    intro k v h
    obtain ⟨k1, v1⟩ := p
    unfold lookupStr at h
    by_cases hk : k1 = k
    · rw [if_pos hk] at h
      subst hk
      simp at h
      subst h
      exact List.mem_cons_self _ _
    · rw [if_neg hk] at h
      exact List.mem_cons_of_mem _ (ih k v h)

theorem digit_not_space {c : Char} (h : c.isDigit = true) : jsIsSpace c = false := by
  simp [Char.isDigit] at h
  simp only [jsIsSpace, Bool.or_eq_false_iff, beq_eq_false_iff_ne, ne_eq]
  refine ⟨⟨⟨⟨⟨?_, ?_⟩, ?_⟩, ?_⟩, ?_⟩, ?_⟩ <;>
    (intro heq; subst heq; exact absurd h (by decide))

set_option maxRecDepth 8000 in
/-- Consistency of the two book tables with the numeric reading of the 3-digit
codes: every abbreviation of bookMap is a non-empty word and maps back, in
bookCodeToNumber, to the numeric value of its 3-digit code. -/
theorem bookTable_check :
    bookMapList.all (fun p =>
      lookupStr bookCodeToNumberList p.2 == some (parseIntDigits p.1.data) &&
      !p.2.data.isEmpty && p.2.data.all isWordChar) = true := by decide

/-! ## Lemmas: evaluation of the codec on well-formed data -/

theorem marbleLink_eval (d : List Char) (h14 : d.length = 14)
    (hdig : ∀ c ∈ d, c.isDigit = true) (book : String)
    (hbook : lookupStr bookMapList (String.mk (d.take 3)) = some book) :
    marbleLinkIdToU23003 (String.mk d) =
      book ++ " " ++ natToString (parseIntDigits ((d.drop 3).take 3)) ++ ":" ++
        natToString (parseIntDigits ((d.drop 6).take 3)) ++ "!" ++
        showJsHalf (some (parseIntDigits (d.drop 11))) := by
  have hsub3 : List.Sublist ((d.drop 3).take 3) d :=
    List.Sublist.trans (List.take_sublist _ _) (List.drop_sublist _ _)
  have hsub6 : List.Sublist ((d.drop 6).take 3) d :=
    List.Sublist.trans (List.take_sublist _ _) (List.drop_sublist _ _)
  have hsub11 : List.Sublist (d.drop 11) d := List.drop_sublist _ _
  have hp3 : jsParseInt (String.mk ((d.drop 3).take 3)) =
      some (parseIntDigits ((d.drop 3).take 3)) := by
    refine jsParseInt_digits ?_ (fun c hc => hdig c (hsub3.subset hc))
    have hl : ((d.drop 3).take 3).length = 3 := by simp [h14]
    intro hnil
    rw [hnil] at hl
    simp at hl
  have hp6 : jsParseInt (String.mk ((d.drop 6).take 3)) =
      some (parseIntDigits ((d.drop 6).take 3)) := by
    refine jsParseInt_digits ?_ (fun c hc => hdig c (hsub6.subset hc))
    have hl : ((d.drop 6).take 3).length = 3 := by simp [h14]
    intro hnil
    rw [hnil] at hl
    simp at hl
  have hp11 : jsParseInt (String.mk (d.drop 11)) = some (parseIntDigits (d.drop 11)) := by
    refine jsParseInt_digits ?_ (fun c hc => hdig c (hsub11.subset hc))
    have hl : (d.drop 11).length = 3 := by simp [h14]
    intro hnil
    rw [hnil] at hl
    simp at hl
  have hlen : ¬ (String.mk d).length ≠ 14 := by
    simp [String.length, h14]
  unfold marbleLinkIdToU23003
  rw [if_neg hlen]
  have e0 : jsSubstr (String.mk d) 0 3 = String.mk (d.take 3) := by
    simp [jsSubstr]
  have e3 : jsSubstr (String.mk d) 3 6 = String.mk ((d.drop 3).take 3) := by
    simp [jsSubstr]
  have e6 : jsSubstr (String.mk d) 6 9 = String.mk ((d.drop 6).take 3) := by
    simp [jsSubstr]
  have e11 : jsSubstrEnd (String.mk d) 11 = String.mk (d.drop 11) := by
    simp [jsSubstrEnd]
  rw [e0, e3, e6, e11]
  simp only [hbook, hp3, hp6, hp11, showJsNum]

theorem takeWhile_of_all {p : Char → Bool} {l : List Char}
    (h : ∀ c ∈ l, p c = true) : l.takeWhile p = l :=
  List.takeWhile_eq_self_iff.mpr h

theorem dropWhile_of_all {p : Char → Bool} {l : List Char}
    (h : ∀ c ∈ l, p c = true) : l.dropWhile p = [] := by
  induction l with
  | nil => rfl
  | cons x xs ih =>
    rw [List.dropWhile_cons, if_pos (h x (by simp))]
    exact ih (fun c hc => h c (by simp [hc]))

theorem matchTail_eval (w1 d1 d2 d3 : List Char)
    (h3 : d3 ≠ []) (h3d : ∀ c ∈ d3, c.isDigit = true) :
    matchTail w1 d1 d2 d3 = some (w1, d1, d2, d3) := by
  unfold matchTail
  rw [takeWhile_of_all h3d, dropWhile_of_all h3d]
  simp [h3]

theorem matchVerse_eval (w1 d1 d2 d3 : List Char)
    (h2 : d2 ≠ []) (h2d : ∀ c ∈ d2, c.isDigit = true)
    (h3 : d3 ≠ []) (h3d : ∀ c ∈ d3, c.isDigit = true) :
    matchVerse w1 d1 (d2 ++ '!' :: d3) = some (w1, d1, d2, d3) := by
  unfold matchVerse
  rw [takeWhile_append_stop d2 _ h2d (Or.inr ⟨'!', _, rfl, by decide⟩),
    dropWhile_append_stop d2 _ h2d (Or.inr ⟨'!', _, rfl, by decide⟩)]
  rw [if_neg h2, if_pos (by simp)]
  simpa using matchTail_eval w1 d1 d2 d3 h3 h3d

theorem matchChapter_eval (w1 d1 d2 d3 : List Char)
    (h1 : d1 ≠ []) (h1d : ∀ c ∈ d1, c.isDigit = true)
    (h2 : d2 ≠ []) (h2d : ∀ c ∈ d2, c.isDigit = true)
    (h3 : d3 ≠ []) (h3d : ∀ c ∈ d3, c.isDigit = true) :
    matchChapter w1 (d1 ++ ':' :: (d2 ++ '!' :: d3)) = some (w1, d1, d2, d3) := by
  unfold matchChapter
  rw [takeWhile_append_stop d1 _ h1d (Or.inr ⟨':', _, rfl, by decide⟩),
    dropWhile_append_stop d1 _ h1d (Or.inr ⟨':', _, rfl, by decide⟩)]
  rw [if_neg h1, if_pos (by simp)]
  simpa using matchVerse_eval w1 d1 d2 d3 h2 h2d h3 h3d

theorem matchU23003_eval (bk d1 d2 d3 : List Char)
    (hbk : bk ≠ []) (hbkw : ∀ c ∈ bk, isWordChar c = true)
    (h1 : d1 ≠ []) (h1d : ∀ c ∈ d1, c.isDigit = true)
    (h2 : d2 ≠ []) (h2d : ∀ c ∈ d2, c.isDigit = true)
    (h3 : d3 ≠ []) (h3d : ∀ c ∈ d3, c.isDigit = true) :
    matchU23003 (bk ++ ' ' :: (d1 ++ ':' :: (d2 ++ '!' :: d3))) = some (bk, d1, d2, d3) := by
  obtain ⟨c1, t1, hd1⟩ := List.exists_cons_of_ne_nil h1
  have hc1 : jsIsSpace c1 = false := digit_not_space (h1d c1 (by simp [hd1]))
  unfold matchU23003
  rw [takeWhile_append_stop bk _ hbkw (Or.inr ⟨' ', _, rfl, by decide⟩),
    dropWhile_append_stop bk _ hbkw (Or.inr ⟨' ', _, rfl, by decide⟩)]
  rw [if_neg hbk]
  have hrest : (' ' :: (d1 ++ ':' :: (d2 ++ '!' :: d3))) =
      [' '] ++ (d1 ++ ':' :: (d2 ++ '!' :: d3)) := rfl
  have hhead : d1 ++ ':' :: (d2 ++ '!' :: d3) =
      c1 :: (t1 ++ ':' :: (d2 ++ '!' :: d3)) := by rw [hd1]; rfl
  unfold matchSpaces
  rw [hrest, takeWhile_append_stop [' '] _ (by intro c hc; simp at hc; subst hc; decide)
      (Or.inr ⟨c1, _, hhead, hc1⟩),
    dropWhile_append_stop [' '] _ (by intro c hc; simp at hc; subst hc; decide)
      (Or.inr ⟨c1, _, hhead, hc1⟩)]
  rw [if_neg (by simp)]
  exact matchChapter_eval bk d1 d2 d3 h1 h1d h2 h2d h3 h3d

theorem parseU23003_eval (bk d1 d2 d3 : List Char)
    (hbk : bk ≠ []) (hbkw : ∀ c ∈ bk, isWordChar c = true)
    (h1 : d1 ≠ []) (h1d : ∀ c ∈ d1, c.isDigit = true)
    (h2 : d2 ≠ []) (h2d : ∀ c ∈ d2, c.isDigit = true)
    (h3 : d3 ≠ []) (h3d : ∀ c ∈ d3, c.isDigit = true) :
    parseU23003Reference (String.mk (bk ++ ' ' :: (d1 ++ ':' :: (d2 ++ '!' :: d3)))) =
      some (getBookNumber (String.mk bk), parseIntDigits d1, parseIntDigits d2,
        parseIntDigits d3) := by
  unfold parseU23003Reference
  have hdata : (String.mk (bk ++ ' ' :: (d1 ++ ':' :: (d2 ++ '!' :: d3)))).data =
      bk ++ ' ' :: (d1 ++ ':' :: (d2 ++ '!' :: d3)) := rfl
  rw [hdata, matchU23003_eval bk d1 d2 d3 hbk hbkw h1 h1d h2 h2d h3 h3d]

theorem last_drop_eleven (d : List Char) (h14 : d.length = 14) :
    (d.drop 11).getLast? = d.getLast? := by
  have hl : (d.drop 11).length = 3 := by simp [h14]
  have hne : d.drop 11 ≠ [] := by
    intro hnil
    rw [hnil] at hl
    simp at hl
  conv_rhs => rw [← List.take_append_drop 11 d]
  rw [List.getLast?_append, List.getLast?_eq_getLast _ hne]
  simp [Option.or_of_isSome]

/-- C1: for every 14-digit encoded scripture location whose final digit is
even and whose leading 3-digit book segment is a key of the book map,
converting with marbleLinkIdToU23003 and then parsing the result with
parseU23003Reference succeeds and yields (bookNum, chapterNum, verseNum,
wordNum), where bookNum is the numeric value of the 3-digit book segment,
chapterNum and verseNum the values of digits 4-6 and 7-9, and wordNum the
value of the trailing 3 digits divided by two. -/
theorem c1_encoded_canonical_roundtrip
    (d : List Char) (h14 : d.length = 14) (hdig : ∀ c ∈ d, c.isDigit = true)
    (c : Char) (hlast : d.getLast? = some c) (hc : c ∈ ['0', '2', '4', '6', '8'])
    (book : String) (hbook : lookupStr bookMapList (String.mk (d.take 3)) = some book) :
    parseU23003Reference (marbleLinkIdToU23003 (String.mk d)) =
      some (parseIntDigits (d.take 3), parseIntDigits ((d.drop 3).take 3),
        parseIntDigits ((d.drop 6).take 3), parseIntDigits (d.drop 11) / 2) := by
  have hdrop11 : ∀ x ∈ d.drop 11, x.isDigit = true :=
    fun x hx => hdig x ((List.drop_sublist _ _).subset hx)
  have hlast11 : (d.drop 11).getLast? = some c := by
    rw [last_drop_eleven d h14]
    exact hlast
  have hmod : parseIntDigits (d.drop 11) % 2 = 0 := by
    rw [parseIntDigits_mod_two c hdrop11 hlast11]
    fin_cases hc <;> decide
  have hhalf : showJsHalf (some (parseIntDigits (d.drop 11))) =
      natToString (parseIntDigits (d.drop 11) / 2) := by
    simp [showJsHalf, hmod]
  have hmem := lookupStr_mem _ _ _ hbook
  have hbfacts := List.all_eq_true.mp bookTable_check _ hmem
  simp only [Bool.and_eq_true, beq_iff_eq, Bool.not_eq_true', List.all_eq_true] at hbfacts
  obtain ⟨⟨hlook, hbne⟩, hbword⟩ := hbfacts
  have hbookne : book.data ≠ [] := by
    intro hnil
    rw [← List.isEmpty_iff] at hnil
    rw [hnil] at hbne
    simp at hbne
  have hgb : getBookNumber book = parseIntDigits (d.take 3) := by
    unfold getBookNumber
    rw [hlook]
  rw [marbleLink_eval d h14 hdig book hbook, hhalf]
  have hshape : book ++ " " ++ natToString (parseIntDigits ((d.drop 3).take 3)) ++ ":" ++
      natToString (parseIntDigits ((d.drop 6).take 3)) ++ "!" ++
      natToString (parseIntDigits (d.drop 11) / 2) =
      String.mk (book.data ++ ' ' ::
        ((natToString (parseIntDigits ((d.drop 3).take 3))).data ++ ':' ::
          ((natToString (parseIntDigits ((d.drop 6).take 3))).data ++ '!' ::
            (natToString (parseIntDigits (d.drop 11) / 2)).data))) := by
    show String.mk _ = _
    simp only [List.append_assoc]
    rfl
  rw [hshape,
    parseU23003_eval book.data _ _ _ hbookne hbword
      (natToString_ne_nil _) (natToString_digits _)
      (natToString_ne_nil _) (natToString_digits _)
      (natToString_ne_nil _) (natToString_digits _),
    string_eta, hgb, parseIntDigits_natToString, parseIntDigits_natToString,
    parseIntDigits_natToString]

/-- Witness for C1 at the concrete encoded location 04200100100002: the
round trip yields (42, 1, 1, 1). -/
theorem c1_encoded_canonical_roundtrip_witness :
    parseU23003Reference (marbleLinkIdToU23003 (String.mk
      ['0', '4', '2', '0', '0', '1', '0', '0', '1', '0', '0', '0', '0', '2'])) =
      some (42, 1, 1, 1) := by
  have h := c1_encoded_canonical_roundtrip
    ['0', '4', '2', '0', '0', '1', '0', '0', '1', '0', '0', '0', '0', '2']
    (by decide) (by decide) '2' (by decide) (by decide) "LUK" (by decide)
  revert h
  decide

/-- C7: marbleLinkIdToU23003 maps 04200100100002 to LUK 1:1!1 and
00100100100012 to GEN 1:1!6 (the word index being the trailing three digits
divided by two), and returns the empty marker for the empty string, for
every input whose length is not exactly 14 (such as a 9-digit one), and
for every 14-character input whose leading 3-character book segment is not
a key of the book map. -/
theorem c7_marbleLinkIdToU23003_examples :
    marbleLinkIdToU23003 "04200100100002" = "LUK 1:1!1" ∧
    marbleLinkIdToU23003 "00100100100012" = "GEN 1:1!6" ∧
    marbleLinkIdToU23003 "" = "" ∧
    (∀ id : String, id.length ≠ 14 → marbleLinkIdToU23003 id = "") ∧
    (∀ id : String, id.length = 14 →
      lookupStr bookMapList (jsSubstr id 0 3) = none → marbleLinkIdToU23003 id = "") := by
  refine ⟨by decide, by decide, by decide, ?_, ?_⟩
  · intro id hlen
    unfold marbleLinkIdToU23003
    rw [if_pos hlen]
  · intro id hlen hbook
    simp only [marbleLinkIdToU23003]
    rw [if_neg (fun hne => hne hlen), hbook]

/-- Witness for C7 at the claim's example points: the 9-digit input
042001001 fails the length test and the 14-digit input 99900100100002 has
the unknown book segment 999; both return the empty marker. -/
theorem c7_marbleLinkIdToU23003_examples_witness :
    marbleLinkIdToU23003 "042001001" = "" ∧
    marbleLinkIdToU23003 "99900100100002" = "" := by
  constructor
  · exact c7_marbleLinkIdToU23003_examples.2.2.2.1 "042001001" (by decide)
  · exact c7_marbleLinkIdToU23003_examples.2.2.2.2 "99900100100002" (by decide) (by decide)

/-- C9: transformDomainCode produces 1.2.3 for 001002003 (3-digit chunks,
leading zeros stripped, period-joined), produces 123 for 123, and produces
no code for empty input. -/
theorem c9_transformDomainCode_examples :
    transformDomainCode "001002003" = ["1.2.3"] ∧
    transformDomainCode "123" = ["123"] ∧
    transformDomainCode "" = [] := by
  decide

/-! ## Lemmas: splitting and joining sense ids -/

theorem allDigitsSeg_of {s : List Char} (hne : s ≠ [])
    (hd : ∀ c ∈ s, c.isDigit = true) : allDigitsSeg s = true := by
  simp [allDigitsSeg, hne, List.all_eq_true]
  exact hd

theorem no_hyphen_of_digits {s : List Char} (hd : ∀ c ∈ s, c.isDigit = true) :
    '-' ∉ s := by
  intro hmem
  have := hd '-' hmem
  simp at this

theorem splitOn_no_sep {sep : Char} : ∀ {s : List Char}, sep ∉ s → splitOn sep s = [s] := by
  intro s
  induction s with
  | nil => intro _; rfl
  | cons c rest ih =>
    intro h
    have hc : ¬ c = sep := fun hcs => h (by simp [hcs])
    unfold splitOn
    rw [if_neg hc, ih (fun hm => h (by simp [hm]))]

theorem splitOn_append_sep {sep : Char} :
    ∀ {s rest : List Char}, sep ∉ s →
      splitOn sep (s ++ sep :: rest) = s :: splitOn sep rest := by
  intro s rest
  induction s with
  | nil =>
    intro _
    show splitOn sep (sep :: rest) = [] :: splitOn sep rest
    simp [splitOn]
  | cons c t ih =>
    intro h
    have hc : ¬ c = sep := fun hcs => h (by simp [hcs])
    show splitOn sep (c :: (t ++ sep :: rest)) = (c :: t) :: splitOn sep rest
    simp only [splitOn]
    rw [if_neg hc, ih (fun hm => h (by simp [hm]))]

theorem splitOn_joinHyphen :
    ∀ {segs : List (List Char)}, segs ≠ [] → (∀ t ∈ segs, '-' ∉ t) →
      splitOn '-' (joinHyphen segs) = segs := by
  intro segs
  induction segs with
  | nil => intro h; exact absurd rfl h
  | cons s rest ih =>
    intro _ hnh
    cases rest with
    | nil => exact splitOn_no_sep (hnh s (by simp))
    | cons s2 rest2 =>
      show splitOn '-' (s ++ '-' :: joinHyphen (s2 :: rest2)) = s :: (s2 :: rest2)
      rw [splitOn_append_sep (hnh s (by simp)),
        ih (by simp) (fun t ht => hnh t (by simp [ht]))]

/-- Characters of the sense prefix up to the hyphen. -/
def senseWordChars : List Char := ['s', 'e', 'n', 's', 'e']

theorem splitOn_senseData (body : List Char) :
    splitOn '-' (sensePreChars ++ body) = senseWordChars :: splitOn '-' body := by
  show splitOn '-' (senseWordChars ++ '-' :: body) = senseWordChars :: splitOn '-' body
  exact splitOn_append_sep (by decide)

/-! ## Lemmas: equivalence of the hierarchical-pattern loop with its
specification form -/

theorem dropCommon_length :
    ∀ {a b : List Char}, a.length = b.length →
      (dropCommon a b).1.length = (dropCommon a b).2.length := by
  intro a
  induction a with
  | nil =>
    intro b h
    cases b with
    | nil => rfl
    | cons y ys => simp at h
  | cons x xs ih =>
    intro b h
    cases b with
    | nil => simp at h
    | cons y ys =>
      unfold dropCommon
      by_cases hxy : x = y
      · rw [if_pos hxy]
        exact ih (by simpa using h)
      · rw [if_neg hxy]
        simpa using h

theorem hierSuffix_eq :
    ∀ (ps cs : List Char) (h : Bool), ps.length = cs.length →
      hierSuffix ps cs h =
        (ps.all (fun c => c == '0') && (h || cs.any (fun c => c != '0'))) := by
  intro ps
  induction ps with
  | nil =>
    intro cs h hl
    cases cs with
    | nil => simp [hierSuffix]
    | cons y ys => simp at hl
  | cons p pt ih =>
    intro cs h hl
    cases cs with
    | nil => simp at hl
    | cons c ct =>
      unfold hierSuffix
      by_cases hp : p = '0'
      · rw [if_pos hp]
        have hlen : pt.length = ct.length := by simpa using hl
        rw [show (c :: ct).tail = ct from rfl, show (c :: ct).head? = some c from rfl]
        have hsome : (some c != some '0') = (c != '0') := by simp [bne]
        rw [ih ct _ hlen, hsome]
        subst hp
        simp only [List.all_cons, List.any_cons, beq_self_eq_true, Bool.true_and]
        cases h <;> cases c != '0' <;> cases pt.all (fun x => x == '0') <;>
          cases ct.any (fun x => x != '0') <;> rfl
      · rw [if_neg hp]
        have hpb : (p == '0') = false := by simpa using hp
        simp [List.all_cons, hpb]

theorem hierAdjacent_eq_spec :
    ∀ (l : List (List Char)), (∀ s ∈ l, ∀ t ∈ l, s.length = t.length) →
      hierAdjacent l = specHierChain l := by
  intro l
  induction l with
  | nil => intro _; rfl
  | cons a rest ih =>
    intro h
    cases rest with
    | nil => rfl
    | cons b rest2 =>
      show ((hierSuffix (dropCommon a b).1 (dropCommon a b).2 false) &&
          hierAdjacent (b :: rest2)) =
        (specHierPair a b && specHierChain (b :: rest2))
      have hab : a.length = b.length := h a (by simp) b (by simp)
      rw [hierSuffix_eq _ _ _ (dropCommon_length hab),
        ih (fun s hs t ht => h s (by simp [hs]) t (by simp [ht]))]
      simp only [specHierPair, Bool.false_or]

theorem condense_prelude (segs : List (List Char)) (p0 : List Char)
    (tl : List (List Char)) (hsegs : segs = p0 :: tl)
    (hdig : ∀ s ∈ segs, s ≠ [] ∧ ∀ c ∈ s, c.isDigit = true) :
    condenseSenseId (String.mk (sensePreChars ++ joinHyphen segs)) =
      (if (p0 :: tl).all (fun p => p.length == p0.length) then
        if hierAdjacent (p0 :: tl) then
          String.mk (sensePreChars ++ (p0 :: tl).getLast (List.cons_ne_nil p0 tl))
        else String.mk (sensePreChars ++ joinHyphen segs)
      else
        if 2 ≤ (p0 :: tl).length then
          if anyLonger (p0 :: tl) then String.mk (sensePreChars ++ joinHyphen segs)
          else String.mk (sensePreChars ++ overlaySegs p0 tl)
        else String.mk (sensePreChars ++ joinHyphen segs)) := by
  subst hsegs
  have hnh : ∀ t ∈ p0 :: tl, '-' ∉ t := fun t ht => no_hyphen_of_digits (hdig t ht).2
  have hsplit : splitOn '-' (sensePreChars ++ joinHyphen (p0 :: tl)) =
      senseWordChars :: (p0 :: tl) := by
    rw [splitOn_senseData, splitOn_joinHyphen (by simp) hnh]
  have hpre : sensePreChars.isPrefixOf (sensePreChars ++ joinHyphen (p0 :: tl)) = true :=
    List.isPrefixOf_iff_prefix.mpr (List.prefix_append _ _)
  have hall : (p0 :: tl).all allDigitsSeg = true := by
    rw [List.all_eq_true]
    intro s hs
    exact allDigitsSeg_of (hdig s hs).1 (hdig s hs).2
  simp only [condenseSenseId]
  rw [hpre, hsplit]
  rw [if_neg (by simp), if_neg (by simp)]
  rw [show (senseWordChars :: p0 :: tl).drop 1 = p0 :: tl from rfl, hall]
  rw [if_neg (by simp)]

/-- C3: for every identifier made of the sense prefix and two or more
hyphen-separated non-empty all-digit segments of equal length,
condenseSenseId returns the prefix plus the last segment alone exactly when
every adjacent pair satisfies the hierarchical condition (from the first
differing position the earlier segment is all zeros and the later one has a
non-zero there); otherwise the input is returned unchanged. -/
theorem c3_condense_equal_length_segments (segs : List (List Char))
    (h2 : 2 ≤ segs.length)
    (hdig : ∀ s ∈ segs, s ≠ [] ∧ ∀ c ∈ s, c.isDigit = true)
    (heq : ∀ s ∈ segs, ∀ t ∈ segs, s.length = t.length) :
    condenseSenseId (String.mk (sensePreChars ++ joinHyphen segs)) =
      if specHierChain segs then
        String.mk (sensePreChars ++ segs.getLast (by rintro rfl; simp at h2))
      else String.mk (sensePreChars ++ joinHyphen segs) := by
  obtain ⟨p0, tl, hsegs⟩ :=
    List.exists_cons_of_ne_nil (l := segs) (by rintro rfl; simp at h2)
  rw [condense_prelude segs p0 tl hsegs hdig]
  have halleq : (p0 :: tl).all (fun p => p.length == p0.length) = true := by
    rw [List.all_eq_true]
    intro p hp
    rw [hsegs] at heq
    simpa using heq p hp p0 (by simp)
  rw [if_pos halleq, hierAdjacent_eq_spec _ (by rw [hsegs] at heq; exact heq)]
  subst hsegs
  rfl

/-- Witness for C3: condenseSenseId condenses sense-12300-12345 to
sense-12345, and leaves sense-12345-67890 unchanged. -/
theorem c3_condense_equal_length_segments_witness :
    condenseSenseId "sense-12300-12345" = "sense-12345" ∧
    condenseSenseId "sense-12345-67890" = "sense-12345-67890" := by
  have h1 := c3_condense_equal_length_segments
    [['1', '2', '3', '0', '0'], ['1', '2', '3', '4', '5']]
    (by decide) (by decide) (by decide)
  have h2 := c3_condense_equal_length_segments
    [['1', '2', '3', '4', '5'], ['6', '7', '8', '9', '0']]
    (by decide) (by decide) (by decide)
  revert h1 h2
  decide

/-- C4: for every identifier made of the sense prefix and two or more
hyphen-separated non-empty all-digit segments not all of equal length,
condenseSenseId returns the input unchanged when some later segment is
longer than its immediate predecessor, and otherwise returns the prefix
plus the first segment with each subsequent segment overlaid onto the
right-hand end of the accumulator. -/
theorem c4_condense_mixed_length_segments (segs : List (List Char))
    (h2 : 2 ≤ segs.length)
    (hdig : ∀ s ∈ segs, s ≠ [] ∧ ∀ c ∈ s, c.isDigit = true)
    (hne : ¬ ∀ s ∈ segs, ∀ t ∈ segs, s.length = t.length) :
    condenseSenseId (String.mk (sensePreChars ++ joinHyphen segs)) =
      if anyLonger segs then String.mk (sensePreChars ++ joinHyphen segs)
      else String.mk (sensePreChars ++
        overlaySegs (segs.head (by rintro rfl; simp at h2)) segs.tail) := by
  obtain ⟨p0, tl, hsegs⟩ :=
    List.exists_cons_of_ne_nil (l := segs) (by rintro rfl; simp at h2)
  rw [condense_prelude segs p0 tl hsegs hdig]
  have halleq : (p0 :: tl).all (fun p => p.length == p0.length) = false := by
    cases hb : (p0 :: tl).all (fun p => p.length == p0.length) with
    | false => rfl
    | true =>
      exfalso
      apply hne
      rw [List.all_eq_true] at hb
      intro s hs t ht
      rw [hsegs] at hs ht
      have hs' := hb s hs
      have ht' := hb t ht
      simp at hs' ht'
      omega
  rw [halleq]
  rw [if_neg (by simp), if_pos (by rw [hsegs] at h2; exact h2)]
  subst hsegs
  rfl

/-- Witness for C4: condenseSenseId maps sense-1234-56 to sense-1256 and
leaves sense-12-3456 unchanged. -/
theorem c4_condense_mixed_length_segments_witness :
    condenseSenseId "sense-1234-56" = "sense-1256" ∧
    condenseSenseId "sense-12-3456" = "sense-12-3456" := by
  have h1 := c4_condense_mixed_length_segments
    [['1', '2', '3', '4'], ['5', '6']]
    (by decide) (by decide) (by decide)
  have h2 := c4_condense_mixed_length_segments
    [['1', '2'], ['3', '4', '5', '6']]
    (by decide) (by decide) (by decide)
  revert h1 h2
  decide

/-! ## Lemmas: the version number is never read on the Greek path -/

theorem processLexMeaning_greek (lemmaKey entryId baseFormId : String)
    (v w : Option Int) (strongs : List String) (bfIdx lmIdx : Nat)
    (m : LexMeaningElem) (st : EntriesState) :
    processLexMeaning greekDict lemmaKey entryId baseFormId v strongs bfIdx lmIdx m st =
      processLexMeaning greekDict lemmaKey entryId baseFormId w strongs bfIdx lmIdx m st := by
  unfold processLexMeaning
  have hg : ∀ u : Option Int, ¬ (greekDict ≠ greekDict ∧ versionBelow u minContextualVersion) :=
    fun u h => h.1 rfl
  rw [if_neg (hg v), if_neg (hg w)]

theorem processLexMeanings_greek (lemmaKey entryId baseFormId : String)
    (v w : Option Int) (strongs : List String) (bfIdx : Nat) :
    ∀ (lmIdx : Nat) (ms : List LexMeaningElem) (st : EntriesState),
      processLexMeanings greekDict lemmaKey entryId baseFormId v strongs bfIdx lmIdx ms st =
        processLexMeanings greekDict lemmaKey entryId baseFormId w strongs bfIdx lmIdx ms st := by
  intro lmIdx ms
  induction ms generalizing lmIdx with
  | nil => intro st; rfl
  | cons m rest ih =>
    intro st
    unfold processLexMeanings
    rw [processLexMeaning_greek lemmaKey entryId baseFormId v w strongs bfIdx lmIdx m st,
      ih (lmIdx + 1) _]

theorem processBaseForms_greek (lemmaKey entryId : String) (v w : Option Int)
    (strongs : List String) :
    ∀ (bfIdx : Nat) (bfs : List BaseFormElem) (st : EntriesState),
      processBaseForms greekDict lemmaKey entryId v strongs bfIdx bfs st =
        processBaseForms greekDict lemmaKey entryId w strongs bfIdx bfs st := by
  intro bfIdx bfs
  induction bfs generalizing bfIdx with
  | nil => intro st; rfl
  | cons bf rest ih =>
    intro st
    unfold processBaseForms
    by_cases hid : bf.id = ""
    · rw [if_pos hid, if_pos hid, ih (bfIdx + 1) _]
    · rw [if_neg hid, if_neg hid,
        processLexMeanings_greek lemmaKey entryId bf.id v w strongs bfIdx 0 bf.lexMeanings st,
        ih (bfIdx + 1) _]

/-- C8: a source entry of the Hebrew (SDBH) dictionary whose version number
is below the lexical-complete threshold 3 is excluded entirely by the
extractor (the state is unchanged, so it contributes no entry and no sense
in any language); for the Greek (SDBG) dictionary the version number never
causes exclusion (the extraction result does not depend on it at all). -/
theorem c8_version_gate (e : LexiconEntryElem) (st : EntriesState) (v : Int)
    (w : Option Int) :
    (e.version = some v → v < 3 → processLexiconEntry hebrewDict e st = st) ∧
    processLexiconEntry greekDict { e with version := w } st =
      processLexiconEntry greekDict e st := by
  constructor
  · intro hv hlt
    unfold processLexiconEntry
    by_cases hguard : e.lemmaAttr = "" ∨ e.idAttr = ""
    · rw [if_pos hguard]
    · rw [if_neg hguard, if_pos ?_]
      constructor
      · intro h
        simp [hebrewDict, greekDict] at h
      · show versionBelow e.version minLexicalVersion
        rw [hv]
        exact hlt
  · show (if ({ e with version := w } : LexiconEntryElem).lemmaAttr = "" ∨
        ({ e with version := w } : LexiconEntryElem).idAttr = "" then st else _) = _
    unfold processLexiconEntry
    by_cases hguard : e.lemmaAttr = "" ∨ e.idAttr = ""
    · rw [if_pos hguard, if_pos hguard]
    · rw [if_neg hguard, if_neg hguard,
        if_neg (fun h => h.1 rfl), if_neg (fun h => h.1 rfl)]
      exact processBaseForms_greek e.lemmaAttr e.idAttr w e.version _ 0 e.baseForms st

/-- Witness for C8 at a concrete Hebrew entry with version 2 (excluded: the
empty state stays empty) and the same entry under the Greek dictionary with
the version changed (same result either way). -/
theorem c8_version_gate_witness :
    processLexiconEntry hebrewDict entryElemEx [] = [] ∧
    processLexiconEntry greekDict { entryElemEx with version := none } [] =
      processLexiconEntry greekDict entryElemEx [] := by
  exact ⟨(c8_version_gate entryElemEx [] 2 none).1 rfl (by decide),
    (c8_version_gate entryElemEx [] 2 none).2⟩

/-! ## Lemmas: the cross-reference linker frame -/

theorem countChanged_cons_eq {a b : Sense} (l l' : List Sense) (h : b = a) :
    countChanged (a :: l) (b :: l') = countChanged l l' := by
  subst h
  simp [countChanged, List.filter_cons]

theorem countChanged_cons_ne {a b : Sense} (l l' : List Sense) (h : ¬ b = a) :
    countChanged (a :: l) (b :: l') = countChanged l l' + 1 := by
  have hne : a ≠ b := fun he => h he.symm
  simp [countChanged, List.filter_cons, hne]

theorem countChanged_refl : ∀ l : List Sense, countChanged l l = 0 := by
  intro l
  induction l with
  | nil => rfl
  | cons a rest ih => rw [countChanged_cons_eq _ _ rfl, ih]

theorem changedInLang_cons (p q : String × Entry) (l l' : LangEntries) :
    changedInLang (p :: l) (q :: l') =
      countChanged p.2.senses q.2.senses + changedInLang l l' := by
  simp [changedInLang]

theorem changedInLang_refl : ∀ l : LangEntries, changedInLang l l = 0 := by
  intro l
  induction l with
  | nil => rfl
  | cons p rest ih => rw [changedInLang_cons, countChanged_refl, ih]

theorem addOcc_ne (s : Sense) (ref : String) : ¬ addOcc s ref = s := by
  intro h
  have h2 : (addOcc s ref).occurrences = s.occurrences := by rw [h]
  simp only [addOcc] at h2
  cases ho : s.occurrences with
  | none => rw [ho] at h2; exact Option.noConfusion h2
  | some l =>
    rw [ho] at h2
    simp at h2

theorem entryRel_refl (pred : Sense → Bool) (ref : String) (p : String × Entry) :
    entryRel pred ref p p :=
  ⟨rfl, rfl, rfl, rfl, List.forall₂_same.mpr (fun _ _ => Or.inl rfl)⟩

theorem attachFirst_forall2 (pred : Sense → Bool) (ref : String) :
    ∀ ss : List Sense, List.Forall₂ (senseRel pred ref) ss (attachFirst pred ref ss).1 := by
  intro ss
  induction ss with
  | nil => exact List.Forall₂.nil
  | cons s rest ih =>
    unfold attachFirst
    by_cases hp : pred s = true
    · rw [if_pos hp]
      exact List.Forall₂.cons (Or.inr ⟨hp, rfl⟩)
        (List.forall₂_same.mpr (fun _ _ => Or.inl rfl))
    · rw [if_neg hp]
      exact List.Forall₂.cons (Or.inl rfl) ih

theorem attachFirst_count (pred : Sense → Bool) (ref : String) :
    ∀ ss : List Sense, countChanged ss (attachFirst pred ref ss).1 ≤ 1 := by
  intro ss
  induction ss with
  | nil => exact Nat.zero_le 1
  | cons s rest ih =>
    unfold attachFirst
    by_cases hp : pred s = true
    · rw [if_pos hp]
      show countChanged (s :: rest) (addOcc s ref :: rest) ≤ 1
      rw [countChanged_cons_ne _ _ (addOcc_ne s ref), countChanged_refl]
    · rw [if_neg hp]
      show countChanged (s :: rest) (s :: (attachFirst pred ref rest).1) ≤ 1
      rw [countChanged_cons_eq _ _ rfl]
      exact ih

theorem linkLang_forall2 (lemmaKey : String) (pred : Sense → Bool) (ref : String) :
    ∀ le : LangEntries, List.Forall₂ (entryRel pred ref) le (linkLang lemmaKey pred ref le).1 := by
  intro le
  induction le with
  | nil => exact List.Forall₂.nil
  | cons p rest ih =>
    obtain ⟨k, e⟩ := p
    unfold linkLang
    by_cases hk : k = lemmaKey
    · rw [if_pos hk]
      refine List.Forall₂.cons ⟨rfl, rfl, rfl, rfl, attachFirst_forall2 pred ref e.senses⟩ ?_
      exact List.forall₂_same.mpr (fun q _ => entryRel_refl pred ref q)
    · rw [if_neg hk]
      exact List.Forall₂.cons (entryRel_refl pred ref (k, e)) ih

theorem linkLang_count (lemmaKey : String) (pred : Sense → Bool) (ref : String) :
    ∀ le : LangEntries, changedInLang le (linkLang lemmaKey pred ref le).1 ≤ 1 := by
  intro le
  induction le with
  | nil => exact Nat.zero_le 1
  | cons p rest ih =>
    obtain ⟨k, e⟩ := p
    unfold linkLang
    by_cases hk : k = lemmaKey
    · rw [if_pos hk]
      show changedInLang ((k, e) :: rest)
        ((k, { e with senses := (attachFirst pred ref e.senses).1 }) :: rest) ≤ 1
      rw [changedInLang_cons, changedInLang_refl]
      simpa using attachFirst_count pred ref e.senses
    · rw [if_neg hk]
      show changedInLang ((k, e) :: rest)
        ((k, e) :: (linkLang lemmaKey pred ref rest).1) ≤ 1
      rw [changedInLang_cons, countChanged_refl]
      simpa using ih

theorem linkAllLangs_spec (lemmaKey : String) (pred : Sense → Bool) (ref : String) :
    ∀ st : EntriesState, List.Forall₂ (langRel pred ref) st (linkAllLangs lemmaKey pred ref st).1 := by
  intro st
  induction st with
  | nil => exact List.Forall₂.nil
  | cons p rest ih =>
    obtain ⟨lang, le⟩ := p
    unfold linkAllLangs
    exact List.Forall₂.cons
      ⟨rfl, linkLang_forall2 lemmaKey pred ref le, linkLang_count lemmaKey pred ref le⟩ ih

theorem langRel_refl (pred : Sense → Bool) (ref : String) (st : EntriesState) :
    List.Forall₂ (langRel pred ref) st st :=
  List.forall₂_same.mpr (fun a _ =>
    ⟨rfl, List.forall₂_same.mpr (fun p _ => entryRel_refl pred ref p),
      by rw [changedInLang_refl]; exact Nat.zero_le 1⟩)

theorem processLexicalLink_frame (t r : String) (st : EntriesState) (d : String) :
    List.Forall₂ (langRel (linkPred t) r) st (processLexicalLink t r st d).1 := by
  unfold processLexicalLink
  rcases hsplit : splitOn ':' t.data with _ | ⟨p0, _ | ⟨p1, _ | ⟨p2, r2⟩⟩⟩
  · simp only [hsplit]
    exact langRel_refl _ _ st
  · simp only [hsplit]
    exact langRel_refl _ _ st
  · simp only [hsplit]
    exact langRel_refl _ _ st
  · simp only [hsplit]
    by_cases h1 : jsUpper (String.mk p0) ≠ d
    · rw [if_pos h1]
      exact langRel_refl _ _ st
    · rw [if_neg h1]
      by_cases h2 : p1 = [] ∨ p2 = []
      · rw [if_pos h2]
        exact langRel_refl _ _ st
      · rw [if_neg h2]
        by_cases h3 : p2.length ≠ 6 ∧ p2.length ≠ 9
        · rw [if_pos h3]
          exact langRel_refl _ _ st
        · rw [if_neg h3]
          have hpred : linkPred t = senseIndexMatch (jsParseInt (String.mk (p2.take 3)))
              (jsParseInt (String.mk ((p2.drop 3).take 3))) (p2.length == 9)
              (if p2.length == 9 then jsParseInt (String.mk ((p2.drop 6).take 3))
                else none) := by
            unfold linkPred linkSenseIndexChars
            rw [hsplit]
          rw [hpred]
          exact linkAllLangs_spec _ _ _ st

/-- C10: applying one cross-reference link changes, within each language, at
most one sense — the scan stops at the first positional match — and nothing
else: language keys, entry keys, lemma, id and Strong codes of every entry
are unchanged, and every sense is either untouched or has exactly the
decoded reference appended to its occurrence list. -/
theorem c10_link_frame (t r : String) (st : EntriesState) (d : String) :
    List.Forall₂ (fun a b => b.1 = a.1 ∧
      List.Forall₂ (fun p q => q.1 = p.1 ∧ q.2.lemmaText = p.2.lemmaText ∧
        q.2.id = p.2.id ∧ q.2.strongsCodes = p.2.strongsCodes ∧
        List.Forall₂ (senseUnchangedOrAppended r) p.2.senses q.2.senses) a.2 b.2 ∧
      changedInLang a.2 b.2 ≤ 1)
      st (processLexicalLink t r st d).1 := by
  refine (processLexicalLink_frame t r st d).imp ?_
  intro a b h
  obtain ⟨hk, hent, hcnt⟩ := h
  refine ⟨hk, hent.imp ?_, hcnt⟩
  intro p q hpq
  obtain ⟨hq1, hlem, hid, hstr, hsen⟩ := hpq
  refine ⟨hq1, hlem, hid, hstr, hsen.imp ?_⟩
  intro o n ho
  exact ho.elim Or.inl (fun hmn => Or.inr hmn.2)

/-- C2 (amended): applying one cross-reference link appends the decoded
occurrence only to senses matched by the link's positional predicate: base
form and lexical-meaning index must equal the parsed numbers, and the
contextual index is compared only when the link carries a 9-digit index (a
6-digit link ignores the sense's contextual index); every other sense is
untouched. -/
theorem c2_link_positional_match (t r : String) (st : EntriesState) (d : String) :
    List.Forall₂ (fun a b => b.1 = a.1 ∧
      List.Forall₂ (fun p q => q.1 = p.1 ∧
        List.Forall₂ (senseRel (linkPred t) r) p.2.senses q.2.senses) a.2 b.2)
      st (processLexicalLink t r st d).1 := by
  refine (processLexicalLink_frame t r st d).imp ?_
  intro a b h
  obtain ⟨hk, hent, _⟩ := h
  refine ⟨hk, hent.imp ?_⟩
  intro p q hpq
  exact ⟨hpq.1, hpq.2.2.2.2⟩

/-- C2 counterexample: the link SDBG:aleph:000000 has a 6-digit positional
index and hence no contextual part, yet processLexicalLink appends its
occurrence to the sense conSenseEx, whose positional index carries the
contextual part 0 — against the claim that a link without a contextual
index never attaches its occurrence to a sense that has one. -/
theorem c2_counterexample :
    conSenseEx.conIndex = some 0 ∧
    (splitOn ':' ("SDBG:aleph:000000" : String).data).get? 2 =
      some ['0', '0', '0', '0', '0', '0'] ∧
    (processLexicalLink "SDBG:aleph:000000" "GEN 1:1!1" stateConEx "SDBG").1 =
      [("en", [("aleph", { entryConEx with senses :=
        [{ conSenseEx with occurrences := some [{ id := "GEN 1:1!1" }] }] })])] ∧
    (processLexicalLink "SDBG:aleph:000000" "GEN 1:1!1" stateConEx "SDBG").2 = true := by
  decide

/-! ## Lemmas: empty-pruning -/

theorem keepSense_iff (s : Sense) :
    keepSense s = true ↔ (s.definition ≠ "" ∨ s.glosses ≠ []) := by
  simp only [keepSense, Bool.or_eq_true, bne_iff_ne, ne_eq]
  constructor
  · rintro (h | h)
    · exact Or.inl h
    · refine Or.inr (fun hg => h ?_)
      rw [hg]
      rfl
  · rintro (h | h)
    · exact Or.inl h
    · refine Or.inr (fun hl => h (List.length_eq_zero.mp hl))

/-- C6: after the empty-pruning stage, in every language every remaining
sense has a non-empty definition or a non-empty gloss list and every
remaining entry has at least one sense; and no sense with a definition or
at least one gloss is removed — it survives in the entry under the same
lemma key of the same language. -/
theorem c6_remove_empty (st : EntriesState) :
    (∀ p ∈ removeEmptyEntriesAndSenses st, ∀ ke ∈ p.2,
      ke.2.senses ≠ [] ∧ ∀ s ∈ ke.2.senses, (s.definition ≠ "" ∨ s.glosses ≠ [])) ∧
    (∀ p ∈ st, ∃ q ∈ removeEmptyEntriesAndSenses st, q.1 = p.1 ∧
      ∀ ke ∈ p.2, ∀ s ∈ ke.2.senses, (s.definition ≠ "" ∨ s.glosses ≠ []) →
        ∃ ke2 ∈ q.2, ke2.1 = ke.1 ∧ s ∈ ke2.2.senses) := by
  constructor
  · intro p hp ke hke
    obtain ⟨p0, hp0, rfl⟩ := List.mem_map.mp hp
    obtain ⟨hkemem, hkeep⟩ := List.mem_filter.mp hke
    constructor
    · intro hnil
      rw [hnil] at hkeep
      simp at hkeep
    · intro s hs
      obtain ⟨ke0, hke0, rfl⟩ := List.mem_map.mp hkemem
      exact (keepSense_iff s).mp (List.mem_filter.mp hs).2
  · intro p hp
    refine ⟨(p.1, (p.2.map (fun ke => (ke.1,
      { ke.2 with senses := ke.2.senses.filter keepSense }))).filter
        (fun ke => !ke.2.senses.isEmpty)), ?_, rfl, ?_⟩
    · exact List.mem_map.mpr ⟨p, hp, rfl⟩
    · intro ke hke s hs hgood
      refine ⟨(ke.1, { ke.2 with senses := ke.2.senses.filter keepSense }), ?_, rfl, ?_⟩
      · refine List.mem_filter.mpr ⟨List.mem_map.mpr ⟨ke, hke, rfl⟩, ?_⟩
        have hmem : s ∈ ke.2.senses.filter keepSense :=
          List.mem_filter.mpr ⟨hs, (keepSense_iff s).mpr hgood⟩
        simp only [Bool.not_eq_true']
        cases hfe : (ke.2.senses.filter keepSense).isEmpty with
        | false => rfl
        | true =>
          rw [List.isEmpty_iff.mp hfe] at hmem
          simp at hmem
      · exact List.mem_filter.mpr ⟨hs, (keepSense_iff s).mpr hgood⟩

/-- Witness for C6 at stateEmptyEx: the retained sense of the pruned entry
indeed has a definition or a gloss. -/
theorem c6_remove_empty_witness :
    conSenseEx.definition ≠ "" ∨ conSenseEx.glosses ≠ [] := by
  have h := (c6_remove_empty stateEmptyEx).1 ("en", [("aleph", prunedEntryEx)])
    (by decide) ("aleph", prunedEntryEx) (by decide)
  exact h.2 conSenseEx (by decide)

/-! ## Lemmas: the uniqueness check of the validator -/

theorem checkSensesGo_ok_iff :
    ∀ (l : List Sense) (seen : List String),
      (∃ out, checkSensesGo l seen = Except.ok out) ↔
        ((l.map Sense.id).Nodup ∧ ∀ x ∈ l.map Sense.id, x ∉ seen) := by
  intro l
  induction l with
  | nil =>
    intro seen
    simp [checkSensesGo]
  | cons s rest ih =>
    intro seen
    unfold checkSensesGo
    by_cases hmem : s.id ∈ seen
    · rw [if_pos hmem]
      simp only [List.map_cons]
      constructor
      · rintro ⟨out, hout⟩
        exact Except.noConfusion hout
      · rintro ⟨_, hall⟩
        exact absurd hmem (hall s.id (by simp))
    · rw [if_neg hmem]
      rw [ih (s.id :: seen)]
      simp only [List.map_cons, List.nodup_cons]
      constructor
      · rintro ⟨hnd, hall⟩
        refine ⟨⟨?_, hnd⟩, ?_⟩
        · intro hin
          have := hall s.id hin
          simp at this
        · intro x hx
          rcases List.mem_cons.mp hx with rfl | hx'
          · exact hmem
          · intro hxs
            exact hall x hx' (by simp [hxs])
      · rintro ⟨⟨hnotin, hnd⟩, hall⟩
        refine ⟨hnd, ?_⟩
        intro x hx hxc
        rcases List.mem_cons.mp hxc with rfl | hxs
        · exact hnotin hx
        · exact hall x (List.mem_cons_of_mem _ hx) hxs

theorem checkSensesGo_out :
    ∀ (l : List Sense) (seen out : List String),
      checkSensesGo l seen = Except.ok out →
        ∀ x, x ∈ out ↔ (x ∈ l.map Sense.id ∨ x ∈ seen) := by
  intro l
  induction l with
  | nil =>
    intro seen out h x
    simp only [checkSensesGo, Except.ok.injEq] at h
    subst h
    simp
  | cons s rest ih =>
    intro seen out h x
    unfold checkSensesGo at h
    by_cases hmem : s.id ∈ seen
    · rw [if_pos hmem] at h
      exact Except.noConfusion h
    · rw [if_neg hmem] at h
      rw [ih _ _ h x]
      simp only [List.map_cons, List.mem_cons]
      constructor
      · rintro (hx | hx)
        · exact Or.inl (Or.inr hx)
        · rcases hx with rfl | hx'
          · exact Or.inl (Or.inl rfl)
          · exact Or.inr hx'
      · rintro ((rfl | hx) | hx)
        · exact Or.inr (Or.inl rfl)
        · exact Or.inl hx
        · exact Or.inr (Or.inr hx)

theorem checkEntriesGo_ok_iff :
    ∀ (le : List (String × Entry)) (eIds sIds : List String),
      checkEntriesGo le eIds sIds = Except.ok () ↔
        ((entryIdsOf le).Nodup ∧ (∀ x ∈ entryIdsOf le, x ∉ eIds) ∧
          (senseIdsOf le).Nodup ∧ (∀ x ∈ senseIdsOf le, x ∉ sIds)) := by
  intro le
  induction le with
  | nil =>
    intro eIds sIds
    simp [checkEntriesGo, entryIdsOf, senseIdsOf]
  | cons p rest ih =>
    obtain ⟨k, e⟩ := p
    intro eIds sIds
    unfold checkEntriesGo
    have hent : entryIdsOf ((k, e) :: rest) = e.id :: entryIdsOf rest := rfl
    have hsen : senseIdsOf ((k, e) :: rest) =
        e.senses.map Sense.id ++ senseIdsOf rest := rfl
    rw [hent, hsen]
    by_cases hmem : e.id ∈ eIds
    · rw [if_pos hmem]
      constructor
      · intro h
        exact Except.noConfusion h
      · rintro ⟨_, hall, _⟩
        exact absurd hmem (hall e.id (by simp))
    · rw [if_neg hmem]
      cases hsg : checkSensesGo e.senses sIds with
      | error msg =>
        constructor
        · intro h
          exact Except.noConfusion h
        · rintro ⟨h1, h2, h3, h4⟩
          rw [List.nodup_append] at h3
          obtain ⟨out, hout⟩ := (checkSensesGo_ok_iff e.senses sIds).mpr
            ⟨h3.1, fun x hx => h4 x (by simp [hx])⟩
          rw [hsg] at hout
          exact Except.noConfusion hout
      | ok sIds2 =>
        rw [ih (e.id :: eIds) sIds2]
        have hout := checkSensesGo_out e.senses sIds sIds2 hsg
        have hsnd := (checkSensesGo_ok_iff e.senses sIds).mp ⟨sIds2, hsg⟩
        constructor
        · rintro ⟨hnd, hall, hsd, hsall⟩
          refine ⟨?_, ?_, ?_, ?_⟩
          · rw [List.nodup_cons]
            refine ⟨?_, hnd⟩
            intro hin
            exact hall e.id hin (List.mem_cons_self _ _)
          · intro x hx hxe
            rcases List.mem_cons.mp hx with rfl | hx'
            · exact hmem hxe
            · exact hall x hx' (List.mem_cons_of_mem _ hxe)
          · rw [List.nodup_append]
            refine ⟨hsnd.1, hsd, ?_⟩
            intro a ha hb
            exact hsall a hb ((hout a).mpr (Or.inl ha))
          · intro x hx hxs
            rcases List.mem_append.mp hx with hx' | hx'
            · exact hsnd.2 x hx' hxs
            · exact hsall x hx' ((hout x).mpr (Or.inr hxs))
        · rintro ⟨hnd, hall, hsd, hsall⟩
          obtain ⟨hnotin, hnd'⟩ := List.nodup_cons.mp hnd
          rw [List.nodup_append] at hsd
          refine ⟨hnd', ?_, hsd.2.1, ?_⟩
          · intro x hx hxc
            rcases List.mem_cons.mp hxc with rfl | hxe
            · exact hnotin hx
            · exact hall x (List.mem_cons_of_mem _ hx) hxe
          · intro x hx hx2
            rcases (hout x).mp hx2 with hxe | hxs
            · exact hsd.2.2 hxe hx
            · exact hsall x (List.mem_append_right _ hx) hxs

theorem checkLangsGo_ok_iff :
    ∀ st : EntriesState, checkLangsGo st = Except.ok () ↔
      ∀ p ∈ st, (entryIdsOf p.2).Nodup ∧ (senseIdsOf p.2).Nodup := by
  intro st
  induction st with
  | nil => simp [checkLangsGo]
  | cons p rest ih =>
    obtain ⟨lang, le⟩ := p
    unfold checkLangsGo
    cases hce : checkEntriesGo le [] [] with
    | error m =>
      constructor
      · intro h
        exact Except.noConfusion h
      · intro hall
        have h1 := hall (lang, le) (List.mem_cons_self _ _)
        have h2 : checkEntriesGo le [] [] = Except.ok () :=
          (checkEntriesGo_ok_iff le [] []).mpr ⟨h1.1, by simp, h1.2, by simp⟩
        rw [hce] at h2
        exact Except.noConfusion h2
    | ok u =>
      cases u
      rw [ih]
      constructor
      · intro hall p hp
        rcases List.mem_cons.mp hp with rfl | hp'
        · have h2 := (checkEntriesGo_ok_iff le [] []).mp hce
          exact ⟨h2.1, h2.2.2.1⟩
        · exact hall p hp'
      · intro hall p hp
        exact hall p (List.mem_cons_of_mem _ hp)

/-- C5: after sense-id condensing and within-entry duplicate removal, the
validator errors out exactly when, within some language, two distinct
entries share an entry id or two distinct senses share a sense id; when no
such collision exists it returns, unmodified, the state the first two steps
produced. -/
theorem c5_verify_unique (st : EntriesState) :
    ((∃ msg, verifyAndRemoveDuplicateSenses st = Except.error msg) ↔
      hasIdCollision (removeDupWithin (condenseAllIds st))) ∧
    (¬ hasIdCollision (removeDupWithin (condenseAllIds st)) →
      verifyAndRemoveDuplicateSenses st =
        Except.ok (removeDupWithin (condenseAllIds st))) := by
  simp only [verifyAndRemoveDuplicateSenses]
  cases hchk : checkLangsGo (removeDupWithin (condenseAllIds st)) with
  | error m =>
    have hnok : ¬ checkLangsGo (removeDupWithin (condenseAllIds st)) = Except.ok () := by
      rw [hchk]
      intro h
      exact Except.noConfusion h
    rw [checkLangsGo_ok_iff] at hnok
    push_neg at hnok
    obtain ⟨p, hp, hbad⟩ := hnok
    have hcol : hasIdCollision (removeDupWithin (condenseAllIds st)) := by
      refine ⟨p, hp, ?_⟩
      by_cases he : (entryIdsOf p.2).Nodup
      · exact Or.inr (hbad he)
      · exact Or.inl he
    exact ⟨⟨fun _ => hcol, fun _ => ⟨m, rfl⟩⟩, fun hn => absurd hcol hn⟩
  | ok u =>
    cases u
    have hok := (checkLangsGo_ok_iff (removeDupWithin (condenseAllIds st))).mp hchk
    have hnocol : ¬ hasIdCollision (removeDupWithin (condenseAllIds st)) := by
      rintro ⟨p, hp, hbad⟩
      rcases hbad with hbad | hbad
      · exact hbad (hok p hp).1
      · exact hbad (hok p hp).2
    refine ⟨⟨?_, fun hcol => absurd hcol hnocol⟩, fun _ => rfl⟩
    rintro ⟨msg, hmsg⟩
    exact Except.noConfusion hmsg

/-- Witness for C5 at the collision-free state stateOkEx: the validator
returns the condensed and merged state unchanged. -/
theorem c5_verify_unique_witness :
    verifyAndRemoveDuplicateSenses stateOkEx =
      Except.ok (removeDupWithin (condenseAllIds stateOkEx)) :=
  (c5_verify_unique stateOkEx).2 (by decide)
